import Mathlib

/-!
# Verification of the linuxdo-explorer core logic

A shallow embedding of the incremental-pagination, content-normalization,
API-client and topic-listing logic of the linuxdo-explorer VS Code
extension, together with theorems settling the specification's claims
about it.

Sources embedded:
* `src/treeView/LinuxDoTreeDataProvider.ts` — pagination state
  (`topicPostsData`), `getTopicPosts`, `loadMorePosts`,
  `getAllPostsForTopic`, `extractTextFromHtml`, `removeEmojiSyntax`,
  `fixImageUrls`, `applyTextFiltersForPlainText`;
* `src/api/DiscourseApiClient.ts` — `extractCsrfToken`,
  `ensureCookieLoaded`, `request` (status classification);
* `src/services/TopicService.ts` — `getLatestTopics`, `getCategoryTopics`.

Strings are modelled as `List Char`; the network is modelled by passing
the responses the server would return as explicit data.  Regex-based
replacements are modelled by left-to-right scanners that mirror the
semantics of the concrete patterns appearing in the source.
-/

namespace LinuxDo

/-- The double-quote character (written via `ofNat` to keep literals simple). -/
def dquote : Char := Char.ofNat 34

/-- The single-quote character. -/
def squote : Char := Char.ofNat 39

/-! ## Data model (`src/api/ApiTypes.ts`) -/

/-- A forum post (`Post` in `ApiTypes.ts`).  Only the fields the verified
logic reads are carried: `id`, `username`, `post_number` and the cooked
HTML body. -/
structure Post where
  id : Nat
  username : String
  post_number : Nat
  cooked : List Char
  deriving DecidableEq, Repr

/-- A topic summary (`Topic` in `ApiTypes.ts`), restricted to the fields
the listing logic reads. -/
structure Topic where
  id : Nat
  title : String
  slug : String
  posts_count : Nat
  reply_count : Nat
  views : Nat
  deriving DecidableEq, Repr

/-- Topic detail (`TopicDetail` in `ApiTypes.ts`): total post count plus
the post stream, i.e. the authoritative ordered list of all post IDs and
the first page of fetched posts.  (`post_stream.stream || []` and
`post_stream.posts || []` in the source default missing JSON fields to
empty arrays; the model carries the fields directly.) -/
structure TopicDetail where
  posts_count : Nat
  stream : List Nat
  posts : List Post
  deriving DecidableEq, Repr

/-- Errors an API call can surface (section 7 of the spec; the `request`
method of `DiscourseApiClient.ts` produces the first two). -/
inductive ApiError where
  | unauthenticated
  | httpError (status : Nat) (body : List Char)
  | networkError
  deriving DecidableEq, Repr

/-! ## Pagination tracker (`LinuxDoTreeDataProvider.ts`) -/

/-- Per-topic pagination state: one entry of the `topicPostsData` map
(`LinuxDoTreeDataProvider.ts:28`). -/
structure TopicPostState where
  allPostIds : List Nat
  loadedPosts : List Post
  postsCount : Nat
  deriving DecidableEq, Repr

/-- `loadedPosts.map(p => p.id)` (`LinuxDoTreeDataProvider.ts:361`). -/
def loadedPostIds (posts : List Post) : List Nat :=
  posts.map Post.id

/-- `allPostIds.filter(id => !loadedPostIds.has(id))`
(`LinuxDoTreeDataProvider.ts:363`): IDs of the authoritative stream whose
posts have not been loaded yet, in stream order. -/
def unloadedPostIdsOf (st : TopicPostState) : List Nat :=
  st.allPostIds.filter (fun i => !((loadedPostIds st.loadedPosts).contains i))

/-- Seeding of a topic's pagination state on first expansion
(`getTopicPosts`, `LinuxDoTreeDataProvider.ts:298-307`). -/
def seedTopicState (d : TopicDetail) : TopicPostState :=
  { allPostIds := d.stream, loadedPosts := d.posts, postsCount := d.posts_count }

/-- What a "load more" invocation did: found nothing left to load, merged
a fetched batch, or hit an API error (in which case the state is left
unchanged). The requested batch is recorded for the last two. -/
inductive LoadMoreOutcome where
  | noMore
  | merged (requested : List Nat)
  | failed (requested : List Nat)
  deriving DecidableEq, Repr

/-- One invocation of `loadMorePosts`
(`LinuxDoTreeDataProvider.ts:351-383`) on a state that exists in the map.
The network call is modelled by the response `r` the API returns for the
computed batch: `Except.ok` is a resolved `loadMoreTopicPosts` call,
`Except.error` a rejected one (caught by the `try/catch`, which leaves the
state unchanged). -/
def loadMoreStep (st : TopicPostState) (r : Except ApiError (List Post)) :
    TopicPostState × LoadMoreOutcome :=
  let ids := loadedPostIds st.loadedPosts
  if unloadedPostIdsOf st = [] then
    (st, LoadMoreOutcome.noMore)
  else
    let nextBatchIds := (unloadedPostIdsOf st).take 20
    match r with
    | Except.ok morePosts =>
      let newPosts := morePosts.filter (fun p => !(ids.contains p.id))
      ({ st with loadedPosts := st.loadedPosts ++ newPosts },
        LoadMoreOutcome.merged nextBatchIds)
    | Except.error _ => (st, LoadMoreOutcome.failed nextBatchIds)

/-- The batch of post IDs a "load more" invocation actually requested
(`none` when the state was already complete and no fetch was issued). -/
def requestedBatch : LoadMoreOutcome → Option (List Nat)
  | LoadMoreOutcome.noMore => none
  | LoadMoreOutcome.merged b => some b
  | LoadMoreOutcome.failed b => some b

/-- A sequence of "load more" invocations, each consuming the next API
response from `rs`. -/
def runLoadMore (st : TopicPostState) : List (Except ApiError (List Post)) → TopicPostState
  | [] => st
  | r :: rs => runLoadMore (loadMoreStep st r).1 rs

/-- `(a, b) => a.post_number - b.post_number` — the JS sort comparator of
`getTopicPosts` and `getAllPostsForTopic`, as a boolean ordering. -/
def postLe (a b : Post) : Bool :=
  a.post_number ≤ b.post_number

/-- `posts.slice().sort((a, b) => a.post_number - b.post_number)`
(`LinuxDoTreeDataProvider.ts:313` and `:400`/`:421`).  JS `sort` is stable,
so any stable sort by `post_number` — here merge sort — produces the same
list. -/
def sortPosts (posts : List Post) : List Post :=
  List.mergeSort posts postLe

/-- The post list `getTopicPosts` renders into sidebar nodes
(`LinuxDoTreeDataProvider.ts:313-331`): the loaded posts, re-sorted by
`post_number` on every render. -/
def getTopicPostsDisplay (st : TopicPostState) : List Post :=
  sortPosts st.loadedPosts

/-- Whether `getTopicPosts` appends the synthetic "load more" node
(`LinuxDoTreeDataProvider.ts:333-343`). -/
def hasLoadMoreNode (st : TopicPostState) : Bool :=
  st.loadedPosts.length < st.postsCount

/-- Well-formedness of a per-topic pagination state, as a correctly
behaving forum server produces it: the stream lists each post ID once and
its length is the topic's post count; the loaded posts are distinct posts
of the stream.  The code never validates this — theorems that need it
take it as a hypothesis. -/
structure StateWF (st : TopicPostState) : Prop where
  streamNodup : st.allPostIds.Nodup
  streamLength : st.allPostIds.length = st.postsCount
  loadedNodup : (loadedPostIds st.loadedPosts).Nodup
  loadedSub : ∀ i ∈ loadedPostIds st.loadedPosts, i ∈ st.allPostIds

/-- Well-formedness of a `/t/{id}.json` topic-detail response, in the same
sense as `StateWF`. -/
structure DetailWF (d : TopicDetail) : Prop where
  streamNodup : d.stream.Nodup
  streamLength : d.stream.length = d.posts_count
  postsNodup : (d.posts.map Post.id).Nodup
  postsSub : ∀ i ∈ d.posts.map Post.id, i ∈ d.stream

/-- A well-formed `loadMoreTopicPosts` response for the batch a "load
more" on `st` would request: distinct posts drawn from the requested
IDs.  (Errors are unconstrained.) -/
def ResponseWF (st : TopicPostState) (r : Except ApiError (List Post)) : Prop :=
  ∀ ps, r = Except.ok ps →
    (ps.map Post.id).Nodup ∧ ∀ p ∈ ps, p.id ∈ (unloadedPostIdsOf st).take 20

/-- Every response of a run is well-formed for the state it is applied
to. -/
def RunWF (st : TopicPostState) : List (Except ApiError (List Post)) → Prop
  | [] => True
  | r :: rs => ResponseWF st r ∧ RunWF (loadMoreStep st r).1 rs

/-! ## Full-topic preview assembly (`getAllPostsForTopic`,
`LinuxDoTreeDataProvider.ts:389-422`) -/

/-- The merge loop body of `getAllPostsForTopic`
(`LinuxDoTreeDataProvider.ts:410-415`): each post of a fetched batch is
appended only if its ID is not in `loadedPostIds`, and the ID set is
extended as posts are appended (so duplicates inside one batch are also
skipped). -/
def mergePosts : List Nat → List Post → List Post → List Nat × List Post
  | loadedIds, posts, [] => (loadedIds, posts)
  | loadedIds, posts, p :: ps =>
    if loadedIds.contains p.id then
      mergePosts loadedIds posts ps
    else
      mergePosts (loadedIds ++ [p.id]) (posts ++ [p]) ps

/-- The batch loop of `getAllPostsForTopic`
(`LinuxDoTreeDataProvider.ts:404-419`): successive slices of 50 unloaded
IDs, fetched strictly one after the other; a failed batch is skipped
(`try/catch` around each batch).  The list of requested batches is
returned alongside the accumulated posts so that theorems can speak about
the requests that were issued. -/
def batchLoopF (api : List Nat → Except ApiError (List Post)) :
    Nat → List Nat → List Post → List Nat → List Post × List (List Nat)
  | _, _, posts, [] => (posts, [])
  | 0, _, posts, _ => (posts, [])
  | fuel + 1, loadedIds, posts, i :: is =>
    let batchIds := (i :: is).take 50
    let merged :=
      match api batchIds with
      | Except.ok morePosts => mergePosts loadedIds posts morePosts
      | Except.error _ => (loadedIds, posts)
    let tailResult := batchLoopF api fuel merged.1 merged.2 ((i :: is).drop 50)
    (tailResult.1, batchIds :: tailResult.2)

/-- The batch loop of `getAllPostsForTopic`, started with enough fuel for
every 50-ID slice of the unloaded list. -/
def batchLoop (api : List Nat → Except ApiError (List Post))
    (loadedIds : List Nat) (posts : List Post) (unloaded : List Nat) :
    List Post × List (List Nat) :=
  batchLoopF api unloaded.length loadedIds posts unloaded

/-- `getAllPostsForTopic` (`LinuxDoTreeDataProvider.ts:389-422`).  The
initial `getTopic` call is modelled by `detail`; `api` models
`loadMoreTopicPosts`.  The result carries the sorted posts and the trace
of batches requested. -/
def getAllPostsForTopic (detail : Except ApiError TopicDetail)
    (api : List Nat → Except ApiError (List Post)) :
    Except ApiError (List Post × List (List Nat)) :=
  match detail with
  | Except.error e => Except.error e
  | Except.ok d =>
    let allPostIds := d.stream
    let posts := d.posts
    let loadedIds := posts.map Post.id
    if allPostIds = [] ∨ d.posts_count ≤ posts.length then
      Except.ok (sortPosts posts, [])
    else
      let unloaded := allPostIds.filter (fun i => !(loadedIds.contains i))
      let looped := batchLoop api loadedIds posts unloaded
      Except.ok (sortPosts looped.1, looped.2)

/-! ## Content normalizer: regex scanners over `List Char`

Each JS `String.replace(/re/g, …)` call is modelled by a left-to-right
scanner: at every position the concrete pattern is tried; on a match the
replacement is emitted and scanning continues after the matched text, on a
failure one character is kept and scanning continues at the next
position — exactly the observable behaviour of a global regex replace for
the patterns used by the source. -/

/-- A character-by-character pattern: one predicate per character to be
consumed.  `matchesSeq ps s` holds when `s` starts with `ps.length`
characters satisfying the respective predicates. -/
def matchesSeq : List (Char → Bool) → List Char → Bool
  | [], _ => true
  | _ :: _, [] => false
  | p :: ps, c :: cs => p c && matchesSeq ps cs

/-- Case-insensitive single-character pattern (the `/i` flag): the lower-
and upper-case forms are given explicitly. -/
def ci (lo hi : Char) (c : Char) : Bool :=
  c == lo || c == hi

/-- Exact single-character pattern. -/
def ex (ch : Char) (c : Char) : Bool :=
  c == ch

/-- Does the pattern match starting at any position of the string? -/
def containsSeq (ps : List (Char → Bool)) : List Char → Bool
  | [] => matchesSeq ps []
  | c :: cs => matchesSeq ps (c :: cs) || containsSeq ps cs

/-- `s.replace(pat, rep)` for a literal (non-regex-operator) pattern with
the `g` flag: every occurrence, scanned left to right, is replaced;
scanning continues after the replaced occurrence.  The `fuel` argument
makes the recursion structural; every step consumes at least one
character, so the zero-fuel case is never reached when starting from the
input's length. -/
def replaceAllF (pat rep : List Char) : Nat → List Char → List Char
  | _, [] => []
  | 0, s => s
  | fuel + 1, c :: rest =>
    if pat ≠ [] ∧ pat.isPrefixOf (c :: rest) then
      rep ++ replaceAllF pat rep fuel (rest.drop (pat.length - 1))
    else
      c :: replaceAllF pat rep fuel rest

/-- `s.replace(pat, rep)` with the `g` flag, for a literal pattern. -/
def replaceAll (pat rep : List Char) (s : List Char) : List Char :=
  replaceAllF pat rep s.length s

/-- Scanner for `result.replace(/<[^>]*>/g, '')` (`extractTextFromHtml`,
`LinuxDoTreeDataProvider.ts:450`): a `<` with a later `>` matches through
the first such `>` (the `[^>]*` cannot cross one); a `<` with no `>`
after it matches nothing and is kept. -/
def stripTagsF : Nat → List Char → List Char
  | _, [] => []
  | 0, s => s
  | fuel + 1, c :: rest =>
    if c = '<' ∧ rest.contains '>' then
      stripTagsF fuel (rest.drop ((rest.takeWhile (fun x => x != '>')).length + 1))
    else
      c :: stripTagsF fuel rest

/-- `result.replace(/<[^>]*>/g, '')`. -/
def stripTags (s : List Char) : List Char :=
  stripTagsF s.length s

/-- The pattern `<img` of `/<img[^>]*class="[^"]*emoji[^"]*"[^>]*>/gi`. -/
def imgPat : List (Char → Bool) :=
  [ex '<', ci 'i' 'I', ci 'm' 'M', ci 'g' 'G']

/-- The literal `class="` of the emoji-image pattern (7 characters). -/
def classPat : List (Char → Bool) :=
  [ci 'c' 'C', ci 'l' 'L', ci 'a' 'A', ci 's' 'S', ci 's' 'S', ex '=', ex dquote]

/-- The literal `emoji` of the emoji-image pattern. -/
def emojiPat : List (Char → Bool) :=
  [ci 'e' 'E', ci 'm' 'M', ci 'o' 'O', ci 'j' 'J', ci 'i' 'I']

/-- Match attempt of `/<img[^>]*class="[^"]*emoji[^"]*"[^>]*>/i` at the
start of `s`: on success, the number of characters the match consumes
*after* the 4-character `<img` head.  Backtracking of the greedy leading
`[^>]*` is modelled by trying every admissible start of `class="` from the
longest to the shortest; the remaining greedy pieces are determined (the
closing `"` is the first quote after the `[^"]*emoji[^"]*` span, the
closing `>` the first one after it). -/
def emojiImgTailLen (s : List Char) : Option Nat :=
  if matchesSeq imgPat s then
    let u := s.drop 4
    let gtFree := (u.takeWhile (fun c => c != '>')).length
    (List.range (gtFree + 1)).reverse.findSome? (fun p =>
      if matchesSeq classPat (u.drop p) then
        let w := u.drop (p + 7)
        let q := (w.takeWhile (fun c => c != dquote)).length
        if containsSeq emojiPat (w.take q) then
          if q < w.length then
            let z := w.drop (q + 1)
            let r := (z.takeWhile (fun c => c != '>')).length
            if r < z.length then some (p + 7 + q + 1 + r + 1) else none
          else none
        else none
      else none)
  else none

/-- Scanner for
`result.replace(/<img[^>]*class="[^"]*emoji[^"]*"[^>]*>/gi, '')`
(`removeEmojiSyntax`, `LinuxDoTreeDataProvider.ts:733`).  On a match, the
4 characters of `<img` plus the `n` further characters of the match are
consumed. -/
def removeEmojiImagesF : Nat → List Char → List Char
  | _, [] => []
  | 0, s => s
  | fuel + 1, c :: rest =>
    match emojiImgTailLen (c :: rest) with
    | some n => removeEmojiImagesF fuel (rest.drop (3 + n))
    | none => c :: removeEmojiImagesF fuel rest

/-- `result.replace(/<img[^>]*class="[^"]*emoji[^"]*"[^>]*>/gi, '')`. -/
def removeEmojiImages (s : List Char) : List Char :=
  removeEmojiImagesF s.length s

/-- The character class `[a-zA-Z0-9_+\-]` of the emoji shortcode
pattern. -/
def shortcodeChar (c : Char) : Bool :=
  ('a' ≤ c && c ≤ 'z') || ('A' ≤ c && c ≤ 'Z') || ('0' ≤ c && c ≤ '9') ||
    c == '_' || c == '+' || c == '-'

/-- `result.replace(/:[a-zA-Z0-9_+\-]+:/g, '')` (`removeEmojiSyntax`,
`LinuxDoTreeDataProvider.ts:735`): a `:` followed by a nonempty run of
shortcode characters and a closing `:` is removed (scanning resumes after
the closing `:`); otherwise the `:` is kept. -/
def stripShortcodesF : Nat → List Char → List Char
  | _, [] => []
  | 0, s => s
  | fuel + 1, c :: rest =>
    if c = ':' ∧ 0 < (rest.takeWhile shortcodeChar).length ∧
        (rest.drop (rest.takeWhile shortcodeChar).length).head? = some ':' then
      stripShortcodesF fuel (rest.drop ((rest.takeWhile shortcodeChar).length + 1))
    else
      c :: stripShortcodesF fuel rest

/-- `result.replace(/:[a-zA-Z0-9_+\-]+:/g, '')`. -/
def stripShortcodes (s : List Char) : List Char :=
  stripShortcodesF s.length s

/-- `removeEmojiSyntax` (`LinuxDoTreeDataProvider.ts:730-737`): first the
Discourse emoji `<img>` tags, then the `:shortcode:` tokens. -/
def removeEmojiSyntax (input : List Char) : List Char :=
  stripShortcodes (removeEmojiImages input)

/-- JS whitespace for `String.trim` (the characters that can occur in this
development; `trim` also strips more exotic Unicode space separators,
which never arise here). -/
def jsWhitespace (c : Char) : Bool :=
  c == ' ' || c == '\t' || c == '\n' || c == '\r' ||
    c == Char.ofNat 11 || c == Char.ofNat 12 ||
    c == Char.ofNat 160 || c == Char.ofNat 65279

/-- `String.trimEnd`. -/
def jsTrimEnd (s : List Char) : List Char :=
  (s.reverse.dropWhile jsWhitespace).reverse

/-- `String.trim`: strip leading and trailing whitespace. -/
def jsTrim (s : List Char) : List Char :=
  jsTrimEnd (s.dropWhile jsWhitespace)

/-- Display settings (`LinuxDoSettings` in
`LinuxDoTreeDataProvider.ts:9-18`). -/
structure LinuxDoSettings where
  showImages : Bool
  showEmoji : Bool
  autoRefreshMinutes : Nat
  ignoreLineBreaks : Bool
  compactMode : Bool
  grayscaleImages : Bool
  showPostInfo : Bool
  deriving DecidableEq, Repr

/-- The defaults `getSettings` produces when nothing is stored
(`LinuxDoTreeDataProvider.ts:67-77`; the font-size field is presentation
only and not carried). -/
def defaultSettings : LinuxDoSettings :=
  { showImages := true, showEmoji := false, autoRefreshMinutes := 0,
    ignoreLineBreaks := false, compactMode := false,
    grayscaleImages := false, showPostInfo := true }

/-- `applyTextFiltersForPlainText` (`LinuxDoTreeDataProvider.ts:752-761`):
`replace(/(\r\n|\n|\r)/g, '')` removes every CR and LF character when line
breaks are ignored; compact mode never touches the text. -/
def applyTextFiltersForPlainText (text : List Char) (settings : LinuxDoSettings) :
    List Char :=
  if settings.ignoreLineBreaks then
    text.filter (fun c => !(c == '\n' || c == '\r'))
  else
    text

/-- `extractTextFromHtml` (`LinuxDoTreeDataProvider.ts:441-459`): emoji
suppression (settings-dependent), tag stripping, the five entity
unescapes in source order, the plain-text line-break filter, and a final
`trim`. -/
def extractTextFromHtml (html : List Char) (settings : LinuxDoSettings) : List Char :=
  let r0 := if settings.showEmoji then html else removeEmojiSyntax html
  let r1 := stripTags r0
  let r2 := replaceAll ("&nbsp;".toList) (" ".toList) r1
  let r3 := replaceAll ("&lt;".toList) ("<".toList) r2
  let r4 := replaceAll ("&gt;".toList) (">".toList) r3
  let r5 := replaceAll ("&amp;".toList) ("&".toList) r4
  let r6 := replaceAll ("&quot;".toList) [dquote] r5
  jsTrim (applyTextFiltersForPlainText r6 settings)

/-! ## Image URL fixing (`fixImageUrls`,
`LinuxDoTreeDataProvider.ts:701-728`) -/

/-- `DISCOURSE_API.BASE_URL.replace(/\/+$/, '')`
(`LinuxDoTreeDataProvider.ts:703`). -/
def stripTrailingSlashes (s : List Char) : List Char :=
  (s.reverse.dropWhile (fun c => c == '/')).reverse

/-- `DISCOURSE_API.BASE_URL` (`src/constants/Config.ts`) with trailing
slashes stripped. -/
def baseUrl : List Char :=
  stripTrailingSlashes ("https://linux.do".toList)

/-- The literal `src=q/` head of `/src="\/(?!\/)([^"]*)"/g` (and its
single-quote variant), for quote character `q`. -/
def srcSlashPat (q : Char) : List (Char → Bool) :=
  [ex 's', ex 'r', ex 'c', ex '=', ex q, ex '/']

/-- The literal `src=q//` head of `/src="\/\/([^"]*)"/g` (and its
single-quote variant). -/
def srcSlashSlashPat (q : Char) : List (Char → Bool) :=
  [ex 's', ex 'r', ex 'c', ex '=', ex q, ex '/', ex '/']

/-- One pass of `result.replace(/src="\/(?!\/)([^"]*)"/g, 'src="BASE/$1"')`
(`fixImageUrls`, `LinuxDoTreeDataProvider.ts:706-715`; `q` selects the
double- or single-quote variant): root-relative `src` values, i.e. ones
starting with exactly one `/`, are resolved against `base`. -/
def fixSrcRootPassF (q : Char) (base : List Char) : Nat → List Char → List Char
  | _, [] => []
  | 0, s => s
  | fuel + 1, c :: rest =>
    let s := c :: rest
    let t := s.drop 6
    if matchesSeq (srcSlashPat q) s ∧ t.head? ≠ some '/' ∧
        (t.takeWhile (fun x => x != q)).length < t.length then
      's' :: 'r' :: 'c' :: '=' :: q :: (base ++ '/' :: t.takeWhile (fun x => x != q)) ++
        q :: fixSrcRootPassF q base fuel (rest.drop (6 + (t.takeWhile (fun x => x != q)).length))
    else
      c :: fixSrcRootPassF q base fuel rest

/-- One pass of the root-relative `src` replacement, for quote `q`. -/
def fixSrcRootPass (q : Char) (base : List Char) (s : List Char) : List Char :=
  fixSrcRootPassF q base s.length s

/-- One pass of `result.replace(/src="\/\/([^"]*)"/g, 'src="https://$1"')`
(`fixImageUrls`, `LinuxDoTreeDataProvider.ts:718-725`): scheme-relative
`src` values get the `https:` scheme. -/
def fixSrcSchemePassF (q : Char) : Nat → List Char → List Char
  | _, [] => []
  | 0, s => s
  | fuel + 1, c :: rest =>
    let s := c :: rest
    let t := s.drop 7
    if matchesSeq (srcSlashSlashPat q) s ∧
        (t.takeWhile (fun x => x != q)).length < t.length then
      's' :: 'r' :: 'c' :: '=' :: q :: ("https://".toList ++ t.takeWhile (fun x => x != q)) ++
        q :: fixSrcSchemePassF q fuel (rest.drop (7 + (t.takeWhile (fun x => x != q)).length))
    else
      c :: fixSrcSchemePassF q fuel rest

/-- One pass of the scheme-relative `src` replacement, for quote `q`. -/
def fixSrcSchemePass (q : Char) (s : List Char) : List Char :=
  fixSrcSchemePassF q s.length s

/-- `fixImageUrls` (`LinuxDoTreeDataProvider.ts:701-728`): the four
replacement passes in source order — root-relative double-quoted,
root-relative single-quoted, scheme-relative double-quoted,
scheme-relative single-quoted. -/
def fixImageUrls (html : List Char) : List Char :=
  let r1 := fixSrcRootPass dquote baseUrl html
  let r2 := fixSrcRootPass squote baseUrl r1
  let r3 := fixSrcSchemePass dquote r2
  fixSrcSchemePass squote r3

/-- A `src` attribute with quote character `q` and value `v`, as it occurs
inside a cooked post body. -/
def srcAttr (q : Char) (v : List Char) : List Char :=
  's' :: 'r' :: 'c' :: '=' :: q :: v ++ [q]

/-! ## API client request model (`src/api/DiscourseApiClient.ts`) -/

/-- An HTTP response as seen by `request` after `httpsRequest` has
followed redirects and decompressed the body. -/
structure HttpResponse where
  statusCode : Nat
  body : List Char
  deriving DecidableEq, Repr

/-- First-match capture of `/pat([^;]+)/` over a cookie string: at the
first position where the literal `pat` is followed by a nonempty run of
non-`;` characters, that run is returned (positions where the run would be
empty do not match and scanning continues one character further, as in the
regex engine). -/
def captureAfter (pat : List Char) : List Char → Option (List Char)
  | [] => none
  | c :: rest =>
    if pat.isPrefixOf (c :: rest) ∧
        ((c :: rest).drop pat.length).takeWhile (fun x => x != ';') ≠ [] then
      some (((c :: rest).drop pat.length).takeWhile (fun x => x != ';'))
    else
      captureAfter pat rest

/-- `extractCsrfToken` (`DiscourseApiClient.ts:32-47`): try
`/csrf_token=([^;]+)/`, then `/_t=([^;]+)/`, else the empty string.
(`decodeURIComponent` on the capture is not modelled: the request logic
only depends on whether a token is present, and decoding a nonempty
capture yields a nonempty token.) -/
def extractCsrfToken (cookieString : List Char) : List Char :=
  match captureAfter ("csrf_token=".toList) cookieString with
  | some tok => tok
  | none =>
    match captureAfter ("_t=".toList) cookieString with
    | some tok => tok
    | none => []

/-- Network activity of one `request` call on a freshly constructed
client: whether `ensureCookieLoaded` fetched the site's home page to scan
for a CSRF token, and how many requests went to the target endpoint. -/
structure RequestTrace where
  homepageCsrfFetch : Bool
  endpointRequests : Nat
  deriving DecidableEq, Repr

/-- The non-2xx classification of `request`
(`DiscourseApiClient.ts:294-302`): 401/403 become the authentication
failure (`'登录已过期，请重新登录'`), every other non-2xx status the generic
HTTP failure carrying status and body; 2xx is no error. -/
def classifyResponse (r : HttpResponse) : Option ApiError :=
  if r.statusCode < 200 ∨ 300 ≤ r.statusCode then
    if r.statusCode = 401 ∨ r.statusCode = 403 then
      some ApiError.unauthenticated
    else
      some (ApiError.httpError r.statusCode r.body)
  else
    none

/-- One `request` call (`DiscourseApiClient.ts:224-310`) on a freshly
constructed client holding `cookie`: `ensureCookieLoaded` extracts the
CSRF token and, when none is found in the cookie, fetches the home page;
an empty cookie then fails with the authentication error (`'请先登录'`)
before the endpoint is contacted; otherwise the endpoint is contacted
once and the response `endpointResp` is classified.  The JSON decode of a
2xx body is outside this model: a 2xx outcome returns the raw body. -/
def requestModel (cookie : List Char) (endpointResp : HttpResponse) :
    Except ApiError (List Char) × RequestTrace :=
  let csrfFetch := (extractCsrfToken cookie).isEmpty
  if cookie = [] then
    (Except.error ApiError.unauthenticated,
      { homepageCsrfFetch := csrfFetch, endpointRequests := 0 })
  else
    match classifyResponse endpointResp with
    | some e =>
      (Except.error e, { homepageCsrfFetch := csrfFetch, endpointRequests := 1 })
    | none =>
      (Except.ok endpointResp.body,
        { homepageCsrfFetch := csrfFetch, endpointRequests := 1 })

/-! ## Topic listing (`src/services/TopicService.ts`) -/

/-- `TopicService.getLatestTopics`: the API's topic list is cut down to
the first `limit` entries (`topics.slice(0, limit)`); the `limit`
parameter defaults to 20 at every call site. -/
def getLatestTopics (apiTopics : List Topic) (limit : Nat) : List Topic :=
  apiTopics.take limit

/-- `TopicService.getCategoryTopics`: same cap as `getLatestTopics`. -/
def getCategoryTopics (apiTopics : List Topic) (limit : Nat) : List Topic :=
  apiTopics.take limit

/-!
# Theorems

First the shared helper lemmas about the pagination step, then one
theorem (plus counterexample/witness where applicable) per claim.
-/

/-- Boolean `Set.has`-style filtering agrees with propositional
non-membership filtering. -/
theorem filter_not_contains_eq (l ids : List Nat) :
    l.filter (fun i => !(ids.contains i)) = l.filter (fun i => decide (i ∉ ids)) :=
  List.filter_congr (fun x _ => by simp)

/-- `unloadedPostIdsOf` is the membership-based set difference, in stream
order. -/
theorem unloadedPostIdsOf_eq_filter (st : TopicPostState) :
    unloadedPostIdsOf st =
      st.allPostIds.filter (fun i => decide (i ∉ loadedPostIds st.loadedPosts)) := by
  unfold unloadedPostIdsOf
  exact filter_not_contains_eq _ _

theorem loadMoreStep_allPostIds (st : TopicPostState) (r : Except ApiError (List Post)) :
    (loadMoreStep st r).1.allPostIds = st.allPostIds := by
  by_cases h : unloadedPostIdsOf st = [] <;> cases r <;> simp [loadMoreStep, h]

theorem loadMoreStep_postsCount (st : TopicPostState) (r : Except ApiError (List Post)) :
    (loadMoreStep st r).1.postsCount = st.postsCount := by
  by_cases h : unloadedPostIdsOf st = [] <;> cases r <;> simp [loadMoreStep, h]

/-- A "load more" step either leaves the loaded posts unchanged or appends
the ID-filtered batch. -/
theorem loadMoreStep_loadedPosts (st : TopicPostState) (r : Except ApiError (List Post)) :
    (loadMoreStep st r).1.loadedPosts = st.loadedPosts ∨
    ∃ ps, r = Except.ok ps ∧ unloadedPostIdsOf st ≠ [] ∧
      (loadMoreStep st r).1.loadedPosts =
        st.loadedPosts ++
          ps.filter (fun p => !((loadedPostIds st.loadedPosts).contains p.id)) := by
  by_cases h : unloadedPostIdsOf st = []
  · left; cases r <;> simp [loadMoreStep, h]
  · cases r with
    | error e => left; simp [loadMoreStep, h]
    | ok ps => right; exact ⟨ps, rfl, h, by simp [loadMoreStep, h]⟩

theorem loadMoreStep_length_mono (st : TopicPostState) (r : Except ApiError (List Post)) :
    st.loadedPosts.length ≤ (loadMoreStep st r).1.loadedPosts.length := by
  rcases loadMoreStep_loadedPosts st r with h | ⟨ps, _, _, h⟩ <;> simp [h]

/-- Well-formedness of the pagination state is preserved by a "load more"
step fed a well-formed response. -/
theorem stateWF_step (st : TopicPostState) (r : Except ApiError (List Post))
    (hwf : StateWF st) (hr : ResponseWF st r) : StateWF (loadMoreStep st r).1 := by
  rcases loadMoreStep_loadedPosts st r with h | ⟨ps, rfl, hne, h⟩
  · exact ⟨by rw [loadMoreStep_allPostIds]; exact hwf.streamNodup,
      by rw [loadMoreStep_allPostIds, loadMoreStep_postsCount]; exact hwf.streamLength,
      by rw [h]; exact hwf.loadedNodup,
      by rw [h, loadMoreStep_allPostIds]; exact hwf.loadedSub⟩
  · obtain ⟨hnd, hmem⟩ := hr ps rfl
    have hfilter : ∀ p ∈ ps.filter (fun p => !((loadedPostIds st.loadedPosts).contains p.id)),
        p ∈ ps ∧ p.id ∉ loadedPostIds st.loadedPosts := by
      intro p hp
      have := List.mem_filter.mp hp
      refine ⟨this.1, ?_⟩
      simpa using this.2
    refine ⟨?_, ?_, ?_, ?_⟩
    · rw [loadMoreStep_allPostIds]; exact hwf.streamNodup
    · rw [loadMoreStep_allPostIds, loadMoreStep_postsCount]; exact hwf.streamLength
    · rw [h]
      unfold loadedPostIds
      rw [List.map_append]
      rw [List.nodup_append]
      refine ⟨hwf.loadedNodup, ?_, ?_⟩
      · exact ((List.filter_sublist ps).map Post.id).nodup hnd
      · intro a ha hb
        obtain ⟨p, hp, rfl⟩ := List.mem_map.mp hb
        exact (hfilter p hp).2 ha
    · rw [h, loadMoreStep_allPostIds]
      intro i hi
      unfold loadedPostIds at hi
      rw [List.map_append] at hi
      rcases List.mem_append.mp hi with hi | hi
      · exact hwf.loadedSub i hi
      · obtain ⟨p, hp, rfl⟩ := List.mem_map.mp hi
        have hin : p.id ∈ (unloadedPostIdsOf st).take 20 := hmem p (hfilter p hp).1
        have hin2 : p.id ∈ unloadedPostIdsOf st := (List.take_sublist 20 _).subset hin
        rw [unloadedPostIdsOf_eq_filter] at hin2
        exact (List.mem_filter.mp hin2).1

/-- In a well-formed state the loaded posts never outnumber the topic's
post count. -/
theorem stateWF_length_le (st : TopicPostState) (hwf : StateWF st) :
    st.loadedPosts.length ≤ st.postsCount := by
  have h1 : (loadedPostIds st.loadedPosts).Subperm st.allPostIds :=
    List.subperm_of_subset hwf.loadedNodup hwf.loadedSub
  have h2 := h1.length_le
  rw [hwf.streamLength] at h2
  simpa [loadedPostIds] using h2

/-- A well-formed state that has loaded as many posts as the topic counts
has nothing left to load: the next "load more" is a no-op reporting
`noMore` and issuing no fetch. -/
theorem stateWF_noMore (st : TopicPostState) (hwf : StateWF st)
    (hlen : st.loadedPosts.length = st.postsCount) (r : Except ApiError (List Post)) :
    loadMoreStep st r = (st, LoadMoreOutcome.noMore) := by
  have hsub : (loadedPostIds st.loadedPosts).Subperm st.allPostIds :=
    List.subperm_of_subset hwf.loadedNodup hwf.loadedSub
  have hperm : (loadedPostIds st.loadedPosts).Perm st.allPostIds := by
    refine hsub.perm_of_length_le ?_
    have : (loadedPostIds st.loadedPosts).length = st.loadedPosts.length := by
      simp [loadedPostIds]
    rw [this, hlen, hwf.streamLength]
  have hempty : unloadedPostIdsOf st = [] := by
    unfold unloadedPostIdsOf
    rw [List.filter_eq_nil_iff]
    intro i hi
    have : i ∈ loadedPostIds st.loadedPosts := hperm.mem_iff.mpr hi
    simp [this]
  simp [loadMoreStep, hempty]

theorem runLoadMore_append (st : TopicPostState)
    (l1 l2 : List (Except ApiError (List Post))) :
    runLoadMore st (l1 ++ l2) = runLoadMore (runLoadMore st l1) l2 := by
  induction l1 generalizing st with
  | nil => rfl
  | cons r rs ih => simp [runLoadMore, ih]

theorem runLoadMore_postsCount (st : TopicPostState)
    (rs : List (Except ApiError (List Post))) :
    (runLoadMore st rs).postsCount = st.postsCount := by
  induction rs generalizing st with
  | nil => rfl
  | cons r rs ih => rw [runLoadMore, ih, loadMoreStep_postsCount]

theorem runLoadMore_allPostIds (st : TopicPostState)
    (rs : List (Except ApiError (List Post))) :
    (runLoadMore st rs).allPostIds = st.allPostIds := by
  induction rs generalizing st with
  | nil => rfl
  | cons r rs ih => rw [runLoadMore, ih, loadMoreStep_allPostIds]

theorem runWF_take (st : TopicPostState) (rs : List (Except ApiError (List Post)))
    (h : RunWF st rs) : ∀ n, RunWF st (rs.take n) := by
  induction rs generalizing st with
  | nil => intro n; simp [List.take_nil]; exact trivial
  | cons r rs ih =>
    intro n
    cases n with
    | zero => exact trivial
    | succ n => exact ⟨h.1, ih _ h.2 n⟩

theorem stateWF_run (st : TopicPostState) (rs : List (Except ApiError (List Post)))
    (hwf : StateWF st) (h : RunWF st rs) : StateWF (runLoadMore st rs) := by
  induction rs generalizing st with
  | nil => exact hwf
  | cons r rs ih => exact ih _ (stateWF_step _ _ hwf h.1) h.2

theorem runLoadMore_length_mono (st : TopicPostState)
    (rs : List (Except ApiError (List Post))) :
    st.loadedPosts.length ≤ (runLoadMore st rs).loadedPosts.length := by
  induction rs generalizing st with
  | nil => exact le_refl _
  | cons r rs ih => exact le_trans (loadMoreStep_length_mono st r) (ih _)

/-- C1 (confirmed): for a topic whose pagination state exists and is not
yet exhausted, a "load more" invocation requests exactly the first 20
elements, in stream order, of the membership-computed difference between
the authoritative post-ID list and the IDs of the already-loaded posts:
the requested batch is the 20-prefix of that difference, has at most 20
elements, and consists of stream IDs that are not loaded. -/
theorem loadMore_requests_first_twenty (st : TopicPostState)
    (r : Except ApiError (List Post))
    (h : st.allPostIds.filter (fun i => decide (i ∉ loadedPostIds st.loadedPosts)) ≠ []) :
    requestedBatch (loadMoreStep st r).2 =
      some ((st.allPostIds.filter
        (fun i => decide (i ∉ loadedPostIds st.loadedPosts))).take 20) ∧
    ∀ b, requestedBatch (loadMoreStep st r).2 = some b →
      b.length ≤ 20 ∧
      (∀ i ∈ b, i ∈ st.allPostIds ∧ i ∉ loadedPostIds st.loadedPosts) ∧
      b ++ (st.allPostIds.filter
          (fun i => decide (i ∉ loadedPostIds st.loadedPosts))).drop 20 =
        st.allPostIds.filter (fun i => decide (i ∉ loadedPostIds st.loadedPosts)) := by
  have hD := unloadedPostIdsOf_eq_filter st
  have hne : unloadedPostIdsOf st ≠ [] := by rw [hD]; exact h
  have hreq : requestedBatch (loadMoreStep st r).2 =
      some ((unloadedPostIdsOf st).take 20) := by
    cases r <;> simp [loadMoreStep, hne, requestedBatch]
  refine ⟨by rw [hreq, hD], ?_⟩
  intro b hb
  rw [hreq, hD] at hb
  injection hb with hb
  subst hb
  refine ⟨?_, ?_, ?_⟩
  · rw [List.length_take]; omega
  · intro i hi
    have hmem := (List.take_sublist 20 _).subset hi
    have := List.mem_filter.mp hmem
    exact ⟨this.1, of_decide_eq_true this.2⟩
  · exact List.take_append_drop 20 _

/-- C1 witness: a state whose loaded posts are not a contiguous stream
prefix (loaded ID 9 sits in the middle of the stream `[4, 9, 6]`); the
requested batch is the difference `[4, 6]`, not an index-based slice. -/
theorem loadMore_requests_first_twenty_witness :
    requestedBatch (loadMoreStep
      (seedTopicState { posts_count := 3, stream := [4, 9, 6], posts := [{ id := 9, username := "u", post_number := 2, cooked := [] }] })
      (Except.error ApiError.networkError)).2 = some [4, 6] := by
  have h := loadMore_requests_first_twenty
    (seedTopicState { posts_count := 3, stream := [4, 9, 6], posts := [{ id := 9, username := "u", post_number := 2, cooked := [] }] })
    (Except.error ApiError.networkError) (by decide)
  rw [h.1]
  decide

/-- C2 counterexample: the claim's bound `loadedPosts.length ≤ postsCount`
fails on the code for a possible API return.  Seeding reports
`posts_count = 1` with stream `[1, 2]` and no posts; one successful "load
more" whose response carries the two posts leaves 2 loaded posts, above
the recorded count of 1. -/
theorem loadMore_length_can_exceed_postsCount :
    (loadMoreStep (seedTopicState { posts_count := 1, stream := [1, 2], posts := [] })
      (Except.ok [{ id := 1, username := "a", post_number := 1, cooked := [] }, { id := 2, username := "b", post_number := 2, cooked := [] }])).2 =
        LoadMoreOutcome.merged [1, 2] ∧
    (loadMoreStep (seedTopicState { posts_count := 1, stream := [1, 2], posts := [] })
      (Except.ok [{ id := 1, username := "a", post_number := 1, cooked := [] }, { id := 2, username := "b", post_number := 2, cooked := [] }])).1.postsCount = 1 ∧
    (loadMoreStep (seedTopicState { posts_count := 1, stream := [1, 2], posts := [] })
      (Except.ok [{ id := 1, username := "a", post_number := 1, cooked := [] }, { id := 2, username := "b", post_number := 2, cooked := [] }])).1.loadedPosts.length = 2 := by
  decide

/-- C2 (corrected): under well-formed server responses — the stream lists
each ID once and matches `postsCount`, loaded posts are distinct stream
posts, every fetched batch returns distinct posts among the requested
IDs — `loadedPosts.length` is non-decreasing across any number of "load
more" calls and never exceeds `postsCount`, and once it equals
`postsCount` a further call leaves the state unchanged and reports
"no more replies" without fetching. -/
theorem loadMore_monotone_bounded_and_stops (st : TopicPostState)
    (rs : List (Except ApiError (List Post)))
    (hwf : StateWF st) (hrun : RunWF st rs) :
    (∀ n, (runLoadMore st (rs.take n)).loadedPosts.length ≤
        (runLoadMore st (rs.take (n + 1))).loadedPosts.length) ∧
    (∀ n, (runLoadMore st (rs.take n)).loadedPosts.length ≤ st.postsCount) ∧
    ((runLoadMore st rs).loadedPosts.length = st.postsCount →
      ∀ r, loadMoreStep (runLoadMore st rs) r =
        (runLoadMore st rs, LoadMoreOutcome.noMore)) := by
  refine ⟨?_, ?_, ?_⟩
  · intro n
    rw [List.take_succ, runLoadMore_append]
    cases h : rs[n]? with
    | none => simp [runLoadMore]
    | some r =>
      simp only [Option.toList]
      exact le_trans (loadMoreStep_length_mono _ r) (by simp [runLoadMore])
  · intro n
    have hwfn : StateWF (runLoadMore st (rs.take n)) :=
      stateWF_run _ _ hwf (runWF_take _ _ hrun n)
    have := stateWF_length_le _ hwfn
    rwa [runLoadMore_postsCount] at this
  · intro hlen r
    have hwfr : StateWF (runLoadMore st rs) := stateWF_run _ _ hwf hrun
    refine stateWF_noMore _ hwfr ?_ r
    rw [runLoadMore_postsCount]
    exact hlen

/-- C2 witness: a well-formed two-step run (one successful fetch, one
with the state already complete). -/
theorem loadMore_monotone_bounded_and_stops_witness :
    (runLoadMore (seedTopicState { posts_count := 2, stream := [1, 2], posts := [{ id := 1, username := "a", post_number := 1, cooked := [] }] })
      ([Except.ok [{ id := 2, username := "b", post_number := 2, cooked := [] }]].take 1)).loadedPosts.length ≤ 2 := by
  have h := loadMore_monotone_bounded_and_stops
    (seedTopicState { posts_count := 2, stream := [1, 2], posts := [{ id := 1, username := "a", post_number := 1, cooked := [] }] })
    [Except.ok [{ id := 2, username := "b", post_number := 2, cooked := [] }]]
    ⟨by decide, by decide, by decide, by decide⟩
    ⟨by intro ps hps; cases hps; exact ⟨by decide, by decide⟩, trivial⟩
  exact h.2.1 1

/-- C3 counterexample: the seeding invariant fails for a possible
topic-detail return: `posts_count = 0` with a nonempty first page makes
`loadedPosts.length > postsCount`, and the loaded ID is not in the
(empty) stream. -/
theorem seeding_can_violate_invariant :
    (seedTopicState { posts_count := 0, stream := [], posts := [{ id := 7, username := "a", post_number := 1, cooked := [] }] }).postsCount <
      (seedTopicState { posts_count := 0, stream := [], posts := [{ id := 7, username := "a", post_number := 1, cooked := [] }] }).loadedPosts.length ∧
    ¬ (∀ i ∈ loadedPostIds (seedTopicState { posts_count := 0, stream := [], posts := [{ id := 7, username := "a", post_number := 1, cooked := [] }] }).loadedPosts,
        i ∈ (seedTopicState { posts_count := 0, stream := [], posts := [{ id := 7, username := "a", post_number := 1, cooked := [] }] }).allPostIds) := by
  decide

/-- C3 (corrected): for a well-formed topic-detail response and
well-formed batch responses, after seeding and after every later merge
the invariant holds: `loadedPosts.length ≤ postsCount` and the loaded IDs
are a subset of the authoritative stream.  (The unconditional claim — for
arbitrary API values — fails, see the counterexample.) -/
theorem seeded_invariant_holds (d : TopicDetail)
    (rs : List (Except ApiError (List Post)))
    (hd : DetailWF d) (hrun : RunWF (seedTopicState d) rs) :
    ∀ n,
      (runLoadMore (seedTopicState d) (rs.take n)).loadedPosts.length ≤
        (runLoadMore (seedTopicState d) (rs.take n)).postsCount ∧
      ∀ i ∈ loadedPostIds (runLoadMore (seedTopicState d) (rs.take n)).loadedPosts,
        i ∈ d.stream := by
  have hwf : StateWF (seedTopicState d) :=
    ⟨hd.streamNodup, hd.streamLength, hd.postsNodup, hd.postsSub⟩
  intro n
  have hwfn : StateWF (runLoadMore (seedTopicState d) (rs.take n)) :=
    stateWF_run _ _ hwf (runWF_take _ _ hrun n)
  refine ⟨stateWF_length_le _ hwfn, ?_⟩
  intro i hi
  have := hwfn.loadedSub i hi
  rwa [runLoadMore_allPostIds] at this

/-- C3 witness: the invariant after seeding (zero "load more" calls) on a
well-formed detail. -/
theorem seeded_invariant_holds_witness :
    (runLoadMore (seedTopicState { posts_count := 2, stream := [1, 2], posts := [{ id := 1, username := "a", post_number := 1, cooked := [] }] })
      (([] : List (Except ApiError (List Post))).take 0)).loadedPosts.length ≤
      (runLoadMore (seedTopicState { posts_count := 2, stream := [1, 2], posts := [{ id := 1, username := "a", post_number := 1, cooked := [] }] })
      (([] : List (Except ApiError (List Post))).take 0)).postsCount := by
  have h := seeded_invariant_holds
    { posts_count := 2, stream := [1, 2], posts := [{ id := 1, username := "a", post_number := 1, cooked := [] }] }
    ([] : List (Except ApiError (List Post)))
    ⟨by decide, by decide, by decide, by decide⟩ trivial
  exact (h 0).1

/-- The merge loop of `getAllPostsForTopic` keeps the running ID list in
sync with the accumulated posts and keeps it duplicate-free — with no
assumption on the batch, since the ID set grows as the batch is
consumed. -/
theorem mergePosts_invariant (batch : List Post) :
    ∀ loadedIds posts, loadedIds = posts.map Post.id → loadedIds.Nodup →
      (mergePosts loadedIds posts batch).1 = (mergePosts loadedIds posts batch).2.map Post.id ∧
      (mergePosts loadedIds posts batch).1.Nodup := by
  induction batch with
  | nil => intro ids posts h hn; exact ⟨h, hn⟩
  | cons p ps ih =>
    intro ids posts h hn
    by_cases hm : p.id ∈ ids
    · simpa [mergePosts, hm] using ih ids posts h hn
    · have h1 : ids ++ [p.id] = (posts ++ [p]).map Post.id := by simp [h]
      have h2 : (ids ++ [p.id]).Nodup := by
        rw [List.nodup_append]
        refine ⟨hn, List.nodup_singleton _, ?_⟩
        intro a ha hb
        rw [List.mem_singleton] at hb
        subst hb
        exact hm ha
      simpa [mergePosts, hm] using ih _ _ h1 h2

/-- C4 counterexample: the sidebar "load more" merge filters only against
the pre-merge ID set, so a batch that itself repeats a not-yet-loaded ID
appends every occurrence and two loaded posts then share an ID —
contradicting the claim's "even when the batch itself contains duplicate
results". -/
theorem loadMore_intra_batch_duplicate_survives :
    (loadMoreStep (seedTopicState { posts_count := 2, stream := [5, 6], posts := [] })
      (Except.ok [{ id := 5, username := "a", post_number := 2, cooked := [] }, { id := 5, username := "b", post_number := 2, cooked := [] }])).2 =
        LoadMoreOutcome.merged [5, 6] ∧
    loadedPostIds (loadMoreStep (seedTopicState { posts_count := 2, stream := [5, 6], posts := [] })
      (Except.ok [{ id := 5, username := "a", post_number := 2, cooked := [] }, { id := 5, username := "b", post_number := 2, cooked := [] }])).1.loadedPosts = [5, 5] ∧
    ¬ (loadedPostIds (loadMoreStep (seedTopicState { posts_count := 2, stream := [5, 6], posts := [] })
      (Except.ok [{ id := 5, username := "a", post_number := 2, cooked := [] }, { id := 5, username := "b", post_number := 2, cooked := [] }])).1.loadedPosts).Nodup := by
  decide

/-- C4 (corrected): merging deduplicates against the already-loaded posts
by ID alone — a batch post whose ID is already loaded is never appended,
object equality playing no role — and loaded IDs stay distinct whenever
each batch is internally duplicate-free; the full-topic merge loop
(`getAllPostsForTopic`) additionally skips duplicates *within* a batch,
but the sidebar "load more" merge does not (see the counterexample). -/
theorem merge_dedup_by_id (st : TopicPostState) (ps : List Post)
    (hne : unloadedPostIdsOf st ≠ []) :
    ((loadMoreStep st (Except.ok ps)).1.loadedPosts =
      st.loadedPosts ++
        ps.filter (fun p => !((loadedPostIds st.loadedPosts).contains p.id))) ∧
    (∀ x ∈ (loadMoreStep st (Except.ok ps)).1.loadedPosts.drop st.loadedPosts.length,
      x.id ∉ loadedPostIds st.loadedPosts) ∧
    ((ps.map Post.id).Nodup → (loadedPostIds st.loadedPosts).Nodup →
      (loadedPostIds (loadMoreStep st (Except.ok ps)).1.loadedPosts).Nodup) ∧
    (∀ loadedIds posts batch, loadedIds = posts.map Post.id → loadedIds.Nodup →
      ((mergePosts loadedIds posts batch).2.map Post.id).Nodup) := by
  have heq : (loadMoreStep st (Except.ok ps)).1.loadedPosts =
      st.loadedPosts ++
        ps.filter (fun p => !((loadedPostIds st.loadedPosts).contains p.id)) := by
    simp [loadMoreStep, hne]
  refine ⟨heq, ?_, ?_, ?_⟩
  · rw [heq, List.drop_left]
    intro x hx
    have := List.mem_filter.mp hx
    simpa using this.2
  · intro hnd hold
    rw [heq]
    unfold loadedPostIds
    rw [List.map_append, List.nodup_append]
    refine ⟨hold, ((List.filter_sublist ps).map Post.id).nodup hnd, ?_⟩
    intro a ha hb
    obtain ⟨p, hp, rfl⟩ := List.mem_map.mp hb
    have := List.mem_filter.mp hp
    exact absurd ha (by simpa using this.2)
  · intro ids posts batch h hn
    have h2 := mergePosts_invariant batch ids posts h hn
    rw [← h2.1]
    exact h2.2

/-- C4 witness: a batch post carrying an already-loaded ID but different
content (username `z` instead of `a`) is skipped; the genuinely new post
is appended. -/
theorem merge_dedup_by_id_witness :
    (loadMoreStep (seedTopicState { posts_count := 2, stream := [1, 2], posts := [{ id := 1, username := "a", post_number := 1, cooked := [] }] })
      (Except.ok [{ id := 1, username := "z", post_number := 1, cooked := [] }, { id := 2, username := "b", post_number := 2, cooked := [] }])).1.loadedPosts =
      [{ id := 1, username := "a", post_number := 1, cooked := [] }, { id := 2, username := "b", post_number := 2, cooked := [] }] := by
  have h := merge_dedup_by_id
    (seedTopicState { posts_count := 2, stream := [1, 2], posts := [{ id := 1, username := "a", post_number := 1, cooked := [] }] })
    [{ id := 1, username := "z", post_number := 1, cooked := [] }, { id := 2, username := "b", post_number := 2, cooked := [] }]
    (by decide)
  rw [h.1]
  decide

/-- C8 counterexample: with an empty stored cookie the request does fail
with the authentication error, but not before any network call — the
CSRF-token home-page fetch of `ensureCookieLoaded` (triggered because no
token can be extracted from the empty cookie) happens before the check
that throws. -/
theorem request_homepage_fetch_before_auth_failure :
    (requestModel [] { statusCode := 200, body := [] }).1 =
      Except.error ApiError.unauthenticated ∧
    (requestModel [] { statusCode := 200, body := [] }).2.homepageCsrfFetch = true :=
  ⟨rfl, rfl⟩

/-- C8 (corrected): an empty stored cookie fails with `Unauthenticated`
before the endpoint is contacted (though the CSRF home-page fetch may
already have happened — see the counterexample); with a cookie present,
exactly one endpoint request is made and the response is classified:
2xx succeeds, 401/403 fail with `Unauthenticated`, any other status fails
with `HttpError` carrying status and body; no failure is retried (at most
one endpoint request in every case). -/
theorem request_error_classification (cookie : List Char) (r : HttpResponse) :
    (requestModel cookie r).2.endpointRequests ≤ 1 ∧
    (cookie = [] →
      (requestModel cookie r).1 = Except.error ApiError.unauthenticated ∧
      (requestModel cookie r).2.endpointRequests = 0) ∧
    (cookie ≠ [] →
      (requestModel cookie r).2.endpointRequests = 1 ∧
      (200 ≤ r.statusCode → r.statusCode < 300 →
        (requestModel cookie r).1 = Except.ok r.body) ∧
      ((r.statusCode = 401 ∨ r.statusCode = 403) →
        (requestModel cookie r).1 = Except.error ApiError.unauthenticated) ∧
      ((r.statusCode < 200 ∨ 300 ≤ r.statusCode) → r.statusCode ≠ 401 → r.statusCode ≠ 403 →
        (requestModel cookie r).1 = Except.error (ApiError.httpError r.statusCode r.body))) := by
  by_cases hc : cookie = []
  · subst hc
    exact ⟨by simp [requestModel], fun _ => ⟨rfl, rfl⟩, fun h => absurd rfl h⟩
  · refine ⟨?_, fun h => absurd h hc, fun _ => ⟨?_, ?_, ?_, ?_⟩⟩
    · simp only [requestModel]
      rw [if_neg hc]
      cases h : classifyResponse r <;> simp
    · simp only [requestModel]
      rw [if_neg hc]
      cases h : classifyResponse r <;> simp
    · intro h1 h2
      have hcl : classifyResponse r = none := by
        unfold classifyResponse
        rw [if_neg (by omega)]
      simp only [requestModel]
      rw [if_neg hc, hcl]
    · intro h1
      have hcl : classifyResponse r = some ApiError.unauthenticated := by
        unfold classifyResponse
        rw [if_pos (by omega), if_pos h1]
      simp only [requestModel]
      rw [if_neg hc, hcl]
    · intro h1 h2 h3
      have hcl : classifyResponse r = some (ApiError.httpError r.statusCode r.body) := by
        unfold classifyResponse
        rw [if_pos h1, if_neg (by omega)]
      simp only [requestModel]
      rw [if_neg hc, hcl]

/-- C8 witness: a 404 on a present cookie surfaces as `HttpError 404`. -/
theorem request_error_classification_witness :
    (requestModel ("c=1".toList) { statusCode := 404, body := "missing".toList }).1 =
      Except.error (ApiError.httpError 404 ("missing".toList)) := by
  have h := request_error_classification ("c=1".toList)
    { statusCode := 404, body := "missing".toList }
  exact (h.2.2 (by decide)).2.2.2 (Or.inr (by decide)) (by decide) (by decide)

/-- C10 (confirmed): the topic listings present at most 20 topics — the
first 20 of the API's returned list, in order (an interface cap the spec
does not state). -/
theorem topic_listings_capped_at_twenty (apiTopics : List Topic) :
    (getLatestTopics apiTopics 20).length ≤ 20 ∧
    getLatestTopics apiTopics 20 ++ apiTopics.drop 20 = apiTopics ∧
    (getCategoryTopics apiTopics 20).length ≤ 20 ∧
    getCategoryTopics apiTopics 20 ++ apiTopics.drop 20 = apiTopics ∧
    (20 ≤ apiTopics.length → (getLatestTopics apiTopics 20).length = 20) := by
  refine ⟨?_, ?_, ?_, ?_, ?_⟩
  · simp only [getLatestTopics, List.length_take]; omega
  · simp only [getLatestTopics]; exact List.take_append_drop 20 _
  · simp only [getCategoryTopics, List.length_take]; omega
  · simp only [getCategoryTopics]; exact List.take_append_drop 20 _
  · intro h; simp only [getLatestTopics, List.length_take]; omega

/-- The batch trace of the preview loop: the requested batches are the
successive 50-ID slices of the unloaded list — nonempty, at most 50 long,
and concatenating back to the whole list. -/
theorem batchLoopF_trace (api : List Nat → Except ApiError (List Post)) :
    ∀ fuel u loadedIds posts, u.length ≤ fuel →
      ((batchLoopF api fuel loadedIds posts u).2).flatten = u ∧
      ∀ b ∈ (batchLoopF api fuel loadedIds posts u).2, b ≠ [] ∧ b.length ≤ 50 := by
  intro fuel
  induction fuel with
  | zero =>
    intro u ids posts h
    have hu : u = [] := List.eq_nil_of_length_eq_zero (Nat.le_zero.mp h)
    subst hu
    exact ⟨rfl, by simp [batchLoopF]⟩
  | succ fuel ih =>
    intro u ids posts h
    cases u with
    | nil => exact ⟨rfl, by simp [batchLoopF]⟩
    | cons i is =>
      have hlen : ((i :: is).drop 50).length ≤ fuel := by
        simp only [List.length_drop, List.length_cons] at h ⊢
        omega
      cases hapi : api ((i :: is).take 50) with
      | ok ps =>
        obtain ⟨ih1, ih2⟩ :=
          ih ((i :: is).drop 50) (mergePosts ids posts ps).1 (mergePosts ids posts ps).2 hlen
        refine ⟨?_, ?_⟩
        · simp only [batchLoopF, hapi, List.flatten_cons, ih1]
          exact List.take_append_drop 50 _
        · simp only [batchLoopF, hapi, List.mem_cons]
          rintro b (rfl | hb)
          · exact ⟨by simp, by simp [List.length_take]⟩
          · exact ih2 b hb
      | error e =>
        obtain ⟨ih1, ih2⟩ := ih ((i :: is).drop 50) ids posts hlen
        refine ⟨?_, ?_⟩
        · simp only [batchLoopF, hapi, List.flatten_cons, ih1]
          exact List.take_append_drop 50 _
        · simp only [batchLoopF, hapi, List.mem_cons]
          rintro b (rfl | hb)
          · exact ⟨by simp, by simp [List.length_take]⟩
          · exact ih2 b hb

/-- A failing batch contributes exactly nothing: running the loop with an
API is the same as running it with an API whose failures are replaced by
empty successful batches. -/
theorem batchLoopF_skip_failures (api : List Nat → Except ApiError (List Post)) :
    ∀ fuel u loadedIds posts,
      batchLoopF api fuel loadedIds posts u =
        batchLoopF
          (fun b => Except.ok (match api b with | Except.ok ps => ps | Except.error _ => []))
          fuel loadedIds posts u := by
  intro fuel
  induction fuel with
  | zero => intro u ids posts; cases u <;> rfl
  | succ fuel ih =>
    intro u ids posts
    cases u with
    | nil => rfl
    | cons i is =>
      cases hapi : api ((i :: is).take 50) with
      | ok ps => simp only [batchLoopF, hapi, ih]
      | error e => simp only [batchLoopF, hapi, ih, mergePosts]

/-- C9 (confirmed): full-topic preview assembly requests the unloaded IDs
in successive sequential slices of at most 50, a failing batch is skipped
exactly as if it had returned no posts (later batches still contribute),
and the overall operation fails if and only if the initial topic-detail
fetch fails. -/
theorem preview_assembly_partial_failure (e : ApiError) (d : TopicDetail)
    (api : List Nat → Except ApiError (List Post)) :
    getAllPostsForTopic (Except.error e) api = Except.error e ∧
    (∃ out, getAllPostsForTopic (Except.ok d) api = Except.ok out) ∧
    (¬ (d.stream = [] ∨ d.posts_count ≤ d.posts.length) →
      ∀ out, getAllPostsForTopic (Except.ok d) api = Except.ok out →
        out.2.flatten = d.stream.filter (fun i => !((d.posts.map Post.id).contains i)) ∧
        ∀ b ∈ out.2, b ≠ [] ∧ b.length ≤ 50) ∧
    getAllPostsForTopic (Except.ok d) api =
      getAllPostsForTopic (Except.ok d)
        (fun b => Except.ok (match api b with | Except.ok ps => ps | Except.error _ => [])) := by
  refine ⟨rfl, ?_, ?_, ?_⟩
  · simp only [getAllPostsForTopic]
    by_cases h : d.stream = [] ∨ d.posts_count ≤ d.posts.length
    · rw [if_pos h]; exact ⟨_, rfl⟩
    · rw [if_neg h]; exact ⟨_, rfl⟩
  · intro h out hout
    simp only [getAllPostsForTopic] at hout
    rw [if_neg h] at hout
    injection hout with hout
    subst hout
    exact batchLoopF_trace api _ _ _ _ (le_refl _)
  · simp only [getAllPostsForTopic]
    by_cases h : d.stream = [] ∨ d.posts_count ≤ d.posts.length
    · rw [if_pos h, if_pos h]
    · rw [if_neg h, if_neg h]
      unfold batchLoop
      rw [batchLoopF_skip_failures api]

/-- C9 witness: a topic with two unloaded posts and an API that always
fails yields a successful (empty apart from the seed) preview that
requested the single batch `[1, 2]`. -/
theorem preview_assembly_partial_failure_witness :
    ([[1, 2]] : List (List Nat)).flatten =
      List.filter (fun i => !((List.map Post.id []).contains i)) [1, 2] ∧
    ∀ b ∈ ([[1, 2]] : List (List Nat)), b ≠ [] ∧ b.length ≤ 50 := by
  have h := preview_assembly_partial_failure ApiError.networkError
    { posts_count := 2, stream := [1, 2], posts := [] }
    (fun _ => Except.error ApiError.networkError)
  have hout : getAllPostsForTopic
      (Except.ok { posts_count := 2, stream := [1, 2], posts := [] })
      (fun _ => Except.error ApiError.networkError) = Except.ok ([], [[1, 2]]) := by
    simp [getAllPostsForTopic, batchLoop, batchLoopF, sortPosts]
  exact h.2.2.1 (by decide) ([], [[1, 2]]) hout

theorem postLe_trans (a b c : Post) (h1 : postLe a b = true) (h2 : postLe b c = true) :
    postLe a c = true := by
  simp only [postLe, decide_eq_true_eq] at h1 h2 ⊢
  omega

theorem postLe_total (a b : Post) : (postLe a b || postLe b a) = true := by
  simp only [postLe, Bool.or_eq_true, decide_eq_true_eq]
  omega

/-- Two sorted lists that are permutations of each other and whose sort
keys are pairwise distinct are equal — so display order does not depend
on fetch order. -/
theorem sorted_unique_by_keys :
    ∀ (l₁ l₂ : List Post), l₁.Perm l₂ →
      List.Pairwise (fun a b => a.post_number ≤ b.post_number) l₁ →
      List.Pairwise (fun a b => a.post_number ≤ b.post_number) l₂ →
      (l₁.map Post.post_number).Nodup → l₁ = l₂ := by
  intro l₁
  induction l₁ with
  | nil =>
    intro l₂ hp _ _ _
    exact (hp.symm.eq_nil).symm
  | cons a t ih =>
    intro l₂ hp hs1 hs2 hnd
    cases l₂ with
    | nil => exact absurd hp.eq_nil (List.cons_ne_nil a t)
    | cons b t₂ =>
      have hnd' : a.post_number ∉ t.map Post.post_number ∧ (t.map Post.post_number).Nodup := by
        rw [List.map_cons, List.nodup_cons] at hnd
        exact hnd
      have hab : a = b := by
        have ha2 : a ∈ b :: t₂ := hp.mem_iff.mp (List.mem_cons_self a t)
        have hb1 : b ∈ a :: t := hp.mem_iff.mpr (List.mem_cons_self b t₂)
        rcases List.mem_cons.mp ha2 with h | ha2'
        · exact h
        rcases List.mem_cons.mp hb1 with h | hb1'
        · exact h.symm
        have hle1 : a.post_number ≤ b.post_number := (List.pairwise_cons.mp hs1).1 b hb1'
        have hle2 : b.post_number ≤ a.post_number := (List.pairwise_cons.mp hs2).1 a ha2'
        have hk : a.post_number ∈ t.map Post.post_number := by
          rw [Nat.le_antisymm hle1 hle2]
          exact List.mem_map_of_mem Post.post_number hb1'
        exact absurd hk hnd'.1
      subst hab
      have ht := hp.cons_inv
      rw [ih t₂ ht (List.pairwise_cons.mp hs1).2 (List.pairwise_cons.mp hs2).2 hnd'.2]

/-- C5 (confirmed): loaded posts always render ordered by ascending
`post_number` — both the sidebar post list and the full-topic preview
document — and (for distinct sequence numbers) the rendered order is a
function of the loaded set alone, independent of fetch order. -/
theorem display_order_sorted_and_fetch_order_independent
    (st : TopicPostState) (l₂ : List Post)
    (hperm : st.loadedPosts.Perm l₂)
    (hkeys : (st.loadedPosts.map Post.post_number).Nodup) :
    (getTopicPostsDisplay st).Perm st.loadedPosts ∧
    List.Pairwise (fun a b => a.post_number ≤ b.post_number) (getTopicPostsDisplay st) ∧
    getTopicPostsDisplay st = sortPosts l₂ ∧
    ∀ (detail : Except ApiError TopicDetail) (api : List Nat → Except ApiError (List Post))
        out, getAllPostsForTopic detail api = Except.ok out →
      List.Pairwise (fun a b => a.post_number ≤ b.post_number) out.1 := by
  have hsorted : ∀ l : List Post,
      List.Pairwise (fun a b => a.post_number ≤ b.post_number) (sortPosts l) := by
    intro l
    have h := List.sorted_mergeSort
      (fun a b c => postLe_trans a b c) (fun a b => postLe_total a b) l
    refine h.imp ?_
    intro a b hab
    simpa only [postLe, decide_eq_true_eq] using hab
  refine ⟨List.mergeSort_perm st.loadedPosts postLe, hsorted _, ?_, ?_⟩
  · apply sorted_unique_by_keys
    · exact (List.mergeSort_perm _ _).trans (hperm.trans (List.mergeSort_perm l₂ postLe).symm)
    · exact hsorted _
    · exact hsorted _
    · have hmap : ((sortPosts st.loadedPosts).map Post.post_number).Perm
          (st.loadedPosts.map Post.post_number) := (List.mergeSort_perm _ _).map _
      exact hmap.nodup_iff.mpr hkeys
  · intro detail api out hout
    cases detail with
    | error e => exact absurd hout (by simp [getAllPostsForTopic])
    | ok d =>
      simp only [getAllPostsForTopic] at hout
      by_cases h : d.stream = [] ∨ d.posts_count ≤ d.posts.length
      · rw [if_pos h] at hout
        injection hout with hout
        subst hout
        exact hsorted _
      · rw [if_neg h] at hout
        injection hout with hout
        subst hout
        exact hsorted _

/-- C5 witness: two fetch orders of the same two posts render
identically. -/
theorem display_order_sorted_witness :
    getTopicPostsDisplay { allPostIds := [1, 2], loadedPosts := [{ id := 2, username := "b", post_number := 2, cooked := [] }, { id := 1, username := "a", post_number := 1, cooked := [] }], postsCount := 2 } =
      sortPosts [{ id := 1, username := "a", post_number := 1, cooked := [] }, { id := 2, username := "b", post_number := 2, cooked := [] }] := by
  have h := display_order_sorted_and_fetch_order_independent
    { allPostIds := [1, 2], loadedPosts := [{ id := 2, username := "b", post_number := 2, cooked := [] }, { id := 1, username := "a", post_number := 1, cooked := [] }], postsCount := 2 }
    [{ id := 1, username := "a", post_number := 1, cooked := [] }, { id := 2, username := "b", post_number := 2, cooked := [] }]
    (by decide) (by decide)
  exact h.2.2.1

/-- C10 witness: a 21-topic API page is cut to exactly 20. -/
theorem topic_listings_capped_at_twenty_witness :
    (getLatestTopics (List.replicate 21 { id := 0, title := "t", slug := "t", posts_count := 0, reply_count := 0, views := 0 }) 20).length = 20 := by
  have h := topic_listings_capped_at_twenty
    (List.replicate 21 { id := 0, title := "t", slug := "t", posts_count := 0, reply_count := 0, views := 0 })
  exact h.2.2.2.2 (by decide)

/-!
## Normalizer lemmas (C6)

A scanner whose match needs a character that never occurs in the input
leaves the input unchanged.
-/

theorem replaceAllF_id (c0 : Char) (p rep : List Char) :
    ∀ fuel s, c0 ∉ s → replaceAllF (c0 :: p) rep fuel s = s := by
  intro fuel
  induction fuel with
  | zero => intro s _; cases s <;> rfl
  | succ fuel ih =>
    intro s hs
    cases s with
    | nil => rfl
    | cons c rest =>
      have hc : c ≠ c0 := fun h => hs (h ▸ List.mem_cons_self c rest)
      have hpre : ¬ ((c0 :: p) ≠ [] ∧ (c0 :: p).isPrefixOf (c :: rest)) := by
        rintro ⟨-, hp⟩
        simp only [List.isPrefixOf, Bool.and_eq_true, beq_iff_eq] at hp
        exact hc hp.1.symm
      simp only [replaceAllF]
      rw [if_neg hpre]
      rw [ih rest (fun h => hs (List.mem_cons_of_mem c h))]

theorem replaceAll_id (pat rep s : List Char) (c0 : Char)
    (hp : pat.head? = some c0) (h : c0 ∉ s) : replaceAll pat rep s = s := by
  cases pat with
  | nil => simp at hp
  | cons a q =>
    rw [List.head?_cons, Option.some.injEq] at hp
    subst hp
    exact replaceAllF_id _ _ _ _ _ h

theorem stripTagsF_id : ∀ fuel s, '<' ∉ s → stripTagsF fuel s = s := by
  intro fuel
  induction fuel with
  | zero => intro s _; cases s <;> rfl
  | succ fuel ih =>
    intro s hs
    cases s with
    | nil => rfl
    | cons c rest =>
      have hc : c ≠ '<' := fun h => hs (h ▸ List.mem_cons_self c rest)
      simp only [stripTagsF]
      rw [if_neg (fun hcon => hc hcon.1)]
      rw [ih rest (fun h => hs (List.mem_cons_of_mem c h))]

theorem stripTags_id (s : List Char) (h : '<' ∉ s) : stripTags s = s :=
  stripTagsF_id _ _ h

theorem emojiImgTailLen_none (c : Char) (rest : List Char) (hc : c ≠ '<') :
    emojiImgTailLen (c :: rest) = none := by
  have hb : (c == '<') = false := by simpa using hc
  have hm : matchesSeq imgPat (c :: rest) = false := by
    simp [imgPat, matchesSeq, ex, hb]
  simp [emojiImgTailLen, hm]

theorem removeEmojiImagesF_id : ∀ fuel s, '<' ∉ s → removeEmojiImagesF fuel s = s := by
  intro fuel
  induction fuel with
  | zero => intro s _; cases s <;> rfl
  | succ fuel ih =>
    intro s hs
    cases s with
    | nil => rfl
    | cons c rest =>
      have hc : c ≠ '<' := fun h => hs (h ▸ List.mem_cons_self c rest)
      simp only [removeEmojiImagesF, emojiImgTailLen_none c rest hc]
      rw [ih rest (fun h => hs (List.mem_cons_of_mem c h))]

theorem removeEmojiImages_id (s : List Char) (h : '<' ∉ s) : removeEmojiImages s = s :=
  removeEmojiImagesF_id _ _ h

theorem stripShortcodesF_id : ∀ fuel s, ':' ∉ s → stripShortcodesF fuel s = s := by
  intro fuel
  induction fuel with
  | zero => intro s _; cases s <;> rfl
  | succ fuel ih =>
    intro s hs
    cases s with
    | nil => rfl
    | cons c rest =>
      have hc : c ≠ ':' := fun h => hs (h ▸ List.mem_cons_self c rest)
      simp only [stripShortcodesF]
      rw [if_neg (fun hcon => hc hcon.1)]
      rw [ih rest (fun h => hs (List.mem_cons_of_mem c h))]

theorem stripShortcodes_id (s : List Char) (h : ':' ∉ s) : stripShortcodes s = s :=
  stripShortcodesF_id _ _ h

theorem removeEmojiSyntax_id (s : List Char) (h1 : '<' ∉ s) (h2 : ':' ∉ s) :
    removeEmojiSyntax s = s := by
  unfold removeEmojiSyntax
  rw [removeEmojiImages_id s h1, stripShortcodes_id s h2]

/-! Idempotence of `trim`. -/

theorem dropWhile_dropWhile (p : Char → Bool) (l : List Char) :
    (l.dropWhile p).dropWhile p = l.dropWhile p := by
  induction l with
  | nil => rfl
  | cons a t ih =>
    by_cases h : p a
    · simp only [List.dropWhile_cons, if_pos h]
      exact ih
    · simp [List.dropWhile_cons, h]

theorem jsTrimEnd_append (s : List Char) :
    jsTrimEnd s ++ (s.reverse.takeWhile jsWhitespace).reverse = s := by
  unfold jsTrimEnd
  calc (s.reverse.dropWhile jsWhitespace).reverse ++ (s.reverse.takeWhile jsWhitespace).reverse
      = ((s.reverse.takeWhile jsWhitespace) ++ (s.reverse.dropWhile jsWhitespace)).reverse := by
        rw [List.reverse_append]
    _ = s.reverse.reverse := by rw [List.takeWhile_append_dropWhile]
    _ = s := List.reverse_reverse s

theorem jsTrimEnd_sublist (s : List Char) : (jsTrimEnd s).Sublist s := by
  simpa [jsTrimEnd_append s] using
    List.sublist_append_left (jsTrimEnd s) ((s.reverse.takeWhile jsWhitespace).reverse)

theorem jsTrim_sublist (s : List Char) : (jsTrim s).Sublist s :=
  (jsTrimEnd_sublist _).trans (List.dropWhile_sublist _)

theorem jsTrimEnd_idem (s : List Char) : jsTrimEnd (jsTrimEnd s) = jsTrimEnd s := by
  unfold jsTrimEnd
  rw [List.reverse_reverse, dropWhile_dropWhile]

theorem dropWhile_jsTrimEnd (s : List Char) (h : s.dropWhile jsWhitespace = s) :
    (jsTrimEnd s).dropWhile jsWhitespace = jsTrimEnd s := by
  cases he : jsTrimEnd s with
  | nil => rfl
  | cons a t =>
    have happ := jsTrimEnd_append s
    rw [he] at happ
    have hna : ¬ (jsWhitespace a = true) := by
      intro hws
      have hs2 : s = a :: (t ++ (s.reverse.takeWhile jsWhitespace).reverse) := by
        rw [← List.cons_append]
        exact happ.symm
      have hcontra := h
      rw [hs2, List.dropWhile_cons, if_pos hws] at hcontra
      have hlen := congrArg List.length hcontra
      have hle : (List.dropWhile jsWhitespace
          (t ++ (s.reverse.takeWhile jsWhitespace).reverse)).length ≤
          (t ++ (s.reverse.takeWhile jsWhitespace).reverse).length :=
        (List.dropWhile_sublist _).length_le
      simp only [List.length_cons] at hlen
      omega
    rw [List.dropWhile_cons, if_neg hna]

theorem jsTrim_idem (s : List Char) : jsTrim (jsTrim s) = jsTrim s := by
  unfold jsTrim
  rw [dropWhile_jsTrimEnd _ (dropWhile_dropWhile _ _), jsTrimEnd_idem]

theorem jsTrim_extractText (html : List Char) (settings : LinuxDoSettings) :
    jsTrim (extractTextFromHtml html settings) = extractTextFromHtml html settings := by
  simp only [extractTextFromHtml]
  exact jsTrim_idem _

/-- When line breaks are suppressed, the extraction output carries no CR
or LF characters. -/
theorem extractText_no_newlines (html : List Char) (settings : LinuxDoSettings)
    (hib : settings.ignoreLineBreaks = true) :
    '\n' ∉ extractTextFromHtml html settings ∧ '\r' ∉ extractTextFromHtml html settings := by
  simp only [extractTextFromHtml]
  constructor
  · intro hc
    have hmem := (jsTrim_sublist _).subset hc
    unfold applyTextFiltersForPlainText at hmem
    rw [if_pos hib] at hmem
    have := (List.mem_filter.mp hmem).2
    simp at this
  · intro hc
    have hmem := (jsTrim_sublist _).subset hc
    unfold applyTextFiltersForPlainText at hmem
    rw [if_pos hib] at hmem
    have := (List.mem_filter.mp hmem).2
    simp at this

/-- C6 counterexample: plain-text extraction is not idempotent — one pass
turns the escaped markup `&lt;b&gt;` into the literal tag `<b>`, which a
second pass strips to the empty string. -/
theorem extractText_not_idempotent :
    extractTextFromHtml ("&lt;b&gt;".toList) defaultSettings = "<b>".toList ∧
    extractTextFromHtml (extractTextFromHtml ("&lt;b&gt;".toList) defaultSettings)
      defaultSettings = [] ∧
    extractTextFromHtml (extractTextFromHtml ("&lt;b&gt;".toList) defaultSettings)
        defaultSettings ≠
      extractTextFromHtml ("&lt;b&gt;".toList) defaultSettings := by
  refine ⟨by decide, by decide, by decide⟩

/-- C6 (corrected): plain-text extraction is not idempotent in general
(unescaping can materialize new tags or entities — see the
counterexample); it is idempotent on every input whose one-pass output
contains no `<`, `&` or `:` character, for every settings value. -/
theorem extractText_idempotent_on_clean (html : List Char) (settings : LinuxDoSettings)
    (h1 : '<' ∉ extractTextFromHtml html settings)
    (h2 : '&' ∉ extractTextFromHtml html settings)
    (h3 : ':' ∉ extractTextFromHtml html settings) :
    extractTextFromHtml (extractTextFromHtml html settings) settings =
      extractTextFromHtml html settings := by
  set y := extractTextFromHtml html settings with hy
  have e0 : (if settings.showEmoji = true then y else removeEmojiSyntax y) = y := by
    by_cases hse : settings.showEmoji = true
    · rw [if_pos hse]
    · rw [if_neg hse, removeEmojiSyntax_id y h1 h3]
  have e1 : stripTags y = y := stripTags_id y h1
  have e2 : replaceAll ("&nbsp;".toList) (" ".toList) y = y :=
    replaceAll_id _ _ _ '&' rfl h2
  have e3 : replaceAll ("&lt;".toList) ("<".toList) y = y :=
    replaceAll_id _ _ _ '&' rfl h2
  have e4 : replaceAll ("&gt;".toList) (">".toList) y = y :=
    replaceAll_id _ _ _ '&' rfl h2
  have e5 : replaceAll ("&amp;".toList) ("&".toList) y = y :=
    replaceAll_id _ _ _ '&' rfl h2
  have e6 : replaceAll ("&quot;".toList) [dquote] y = y :=
    replaceAll_id _ _ _ '&' rfl h2
  have e7 : applyTextFiltersForPlainText y settings = y := by
    unfold applyTextFiltersForPlainText
    by_cases hib : settings.ignoreLineBreaks = true
    · rw [if_pos hib]
      refine List.filter_eq_self.mpr ?_
      intro c hc
      obtain ⟨hn, hr⟩ := extractText_no_newlines html settings hib
      rw [← hy] at hn hr
      have hcn : c ≠ '\n' := fun h => hn (h ▸ hc)
      have hcr : c ≠ '\r' := fun h => hr (h ▸ hc)
      simp [hcn, hcr]
    · rw [if_neg hib]
  calc extractTextFromHtml y settings
      = jsTrim y := by
        simp only [extractTextFromHtml]
        rw [e0, e1, e2, e3, e4, e5, e6, e7]
    _ = y := by rw [hy]; exact jsTrim_extractText html settings

/-- C6 witness: a clean output (`hello world`) is a fixed point of the
extraction. -/
theorem extractText_idempotent_on_clean_witness :
    extractTextFromHtml (extractTextFromHtml ("<p>hello world</p>".toList) defaultSettings)
      defaultSettings = extractTextFromHtml ("<p>hello world</p>".toList) defaultSettings :=
  extractText_idempotent_on_clean ("<p>hello world</p>".toList) defaultSettings
    (by decide) (by decide) (by decide)

/-!
## Image-URL fixing lemmas (C7)
-/

theorem matchesSeq_getElem (ps : List (Char → Bool)) :
    ∀ s, matchesSeq ps s = true →
      ∀ (i : Nat) (p : Char → Bool), ps[i]? = some p →
        ∃ c, s[i]? = some c ∧ p c = true := by
  induction ps with
  | nil => intro s _ i p hp; simp at hp
  | cons p0 ps ih =>
    intro s hm i p hp
    cases s with
    | nil => simp [matchesSeq] at hm
    | cons c cs =>
      simp only [matchesSeq, Bool.and_eq_true] at hm
      cases i with
      | zero =>
        simp only [List.getElem?_cons_zero, Option.some.injEq] at hp
        subst hp
        exact ⟨c, by simp, hm.1⟩
      | succ i =>
        simp only [List.getElem?_cons_succ] at hp ⊢
        exact ih cs hm.2 i p hp

theorem dropWhile_head_not (p : Char → Bool) :
    ∀ (l : List Char) c cs, l.dropWhile p = c :: cs → p c = false := by
  intro l
  induction l with
  | nil => intro c cs h; simp at h
  | cons a t ih =>
    intro c cs h
    by_cases ha : p a
    · rw [List.dropWhile_cons, if_pos ha] at h
      exact ih c cs h
    · rw [List.dropWhile_cons, if_neg ha] at h
      injection h with h1 _
      subst h1
      simpa using ha

/-- If the `[^q]*`-run is shorter than the string, the string contains the
quote character. -/
theorem mem_of_takeWhile_lt (q : Char) (t : List Char)
    (h : (t.takeWhile (fun x => x != q)).length < t.length) : q ∈ t := by
  cases hd : t.dropWhile (fun x => x != q) with
  | nil =>
    exfalso
    have happ := List.takeWhile_append_dropWhile (fun x => x != q) t
    have hlen := congrArg List.length happ
    rw [hd] at hlen
    simp at hlen
    omega
  | cons c cs =>
    have hc : (c != q) = false := dropWhile_head_not _ t c cs hd
    have hcq : c = q := by simpa using hc
    subst hcq
    have hmem : c ∈ t.dropWhile (fun x => x != c) := by
      rw [hd]
      exact List.mem_cons_self _ _
    exact (List.dropWhile_sublist _).subset hmem

/-- A `src=q…closing-q` match needs two occurrences of the quote: one as
the opening delimiter (pattern position 4) and one inside the remainder
as the closing delimiter. -/
theorem count_ge_two_of_attr_match (q : Char) (pat : List (Char → Bool)) (k : Nat)
    (s : List Char) (hpat : pat[4]? = some (ex q)) (hk : 4 < k)
    (hm : matchesSeq pat s = true)
    (hcl : ((s.drop k).takeWhile (fun x => x != q)).length < (s.drop k).length) :
    2 ≤ s.count q := by
  obtain ⟨c4, hc4, hp4⟩ := matchesSeq_getElem pat s hm 4 (ex q) hpat
  have hc4q : c4 = q := by simpa [ex] using hp4
  rw [hc4q] at hc4
  have h1 : q ∈ s.take k := by
    have ht : (s.take k)[4]? = some q := by
      rw [List.getElem?_take, if_pos hk]
      exact hc4
    exact List.getElem?_mem ht
  have h2 : q ∈ s.drop k := mem_of_takeWhile_lt q _ hcl
  have hc1 : 1 ≤ (s.take k).count q := List.count_pos_iff.mpr h1
  have hc2 : 1 ≤ (s.drop k).count q := List.count_pos_iff.mpr h2
  have : (s.take k).count q + (s.drop k).count q = s.count q := by
    rw [← List.count_append, List.take_append_drop]
  omega

/-- The root-relative pass is the identity when no suffix of the input
matches its pattern. -/
theorem fixSrcRootPassF_id (q : Char) (base : List Char) :
    ∀ fuel s,
      (∀ n, ¬ (matchesSeq (srcSlashPat q) (s.drop n) = true ∧
          ((s.drop n).drop 6).head? ≠ some '/' ∧
          (((s.drop n).drop 6).takeWhile (fun x => x != q)).length <
            ((s.drop n).drop 6).length)) →
      fixSrcRootPassF q base fuel s = s := by
  intro fuel
  induction fuel with
  | zero => intro s _; cases s <;> rfl
  | succ fuel ih =>
    intro s hnm
    cases s with
    | nil => rfl
    | cons c rest =>
      have h0 := hnm 0
      rw [List.drop_zero] at h0
      simp only [fixSrcRootPassF]
      rw [if_neg h0]
      rw [ih rest ?_]
      intro n
      have := hnm (n + 1)
      rwa [List.drop_succ_cons] at this

/-- The scheme-relative pass is the identity when no suffix matches. -/
theorem fixSrcSchemePassF_id (q : Char) :
    ∀ fuel s,
      (∀ n, ¬ (matchesSeq (srcSlashSlashPat q) (s.drop n) = true ∧
          (((s.drop n).drop 7).takeWhile (fun x => x != q)).length <
            ((s.drop n).drop 7).length)) →
      fixSrcSchemePassF q fuel s = s := by
  intro fuel
  induction fuel with
  | zero => intro s _; cases s <;> rfl
  | succ fuel ih =>
    intro s hnm
    cases s with
    | nil => rfl
    | cons c rest =>
      have h0 := hnm 0
      rw [List.drop_zero] at h0
      simp only [fixSrcSchemePassF]
      rw [if_neg h0]
      rw [ih rest ?_]
      intro n
      have := hnm (n + 1)
      rwa [List.drop_succ_cons] at this

/-- A string containing the quote character at most once is untouched by
the root-relative pass. -/
theorem fixSrcRootPass_id_of_count (q : Char) (base s : List Char)
    (h : s.count q ≤ 1) : fixSrcRootPass q base s = s := by
  refine fixSrcRootPassF_id q base _ s ?_
  rintro n ⟨hm, -, hcl⟩
  have h2 := count_ge_two_of_attr_match q (srcSlashPat q) 6 (s.drop n)
    (by simp [srcSlashPat]) (by omega) hm hcl
  have hle := (List.drop_sublist n s).count_le q
  omega

/-- A string containing the quote character at most once is untouched by
the scheme-relative pass. -/
theorem fixSrcSchemePass_id_of_count (q : Char) (s : List Char)
    (h : s.count q ≤ 1) : fixSrcSchemePass q s = s := by
  refine fixSrcSchemePassF_id q _ s ?_
  rintro n ⟨hm, hcl⟩
  have h2 := count_ge_two_of_attr_match q (srcSlashSlashPat q) 7 (s.drop n)
    (by simp [srcSlashSlashPat]) (by omega) hm hcl
  have hle := (List.drop_sublist n s).count_le q
  omega

theorem count_srcAttr_ne (q q' : Char) (v : List Char)
    (h1 : ('s' == q') = false) (h2 : ('r' == q') = false) (h3 : ('c' == q') = false)
    (h4 : ('=' == q') = false) (h5 : (q == q') = false) :
    (srcAttr q v).count q' = v.count q' := by
  simp [srcAttr, List.count_cons, List.count_append, h1, h2, h3, h4, h5]

theorem root_noMatch_of_count (q : Char) (u : List Char) (h : u.count q ≤ 1) :
    ¬ (matchesSeq (srcSlashPat q) u = true ∧ (u.drop 6).head? ≠ some '/' ∧
        ((u.drop 6).takeWhile (fun x => x != q)).length < (u.drop 6).length) := by
  rintro ⟨hm, -, hcl⟩
  have := count_ge_two_of_attr_match q (srcSlashPat q) 6 u
    (by simp [srcSlashPat]) (by omega) hm hcl
  omega

theorem scheme_noMatch_of_count (q : Char) (u : List Char) (h : u.count q ≤ 1) :
    ¬ (matchesSeq (srcSlashSlashPat q) u = true ∧
        ((u.drop 7).takeWhile (fun x => x != q)).length < (u.drop 7).length) := by
  rintro ⟨hm, hcl⟩
  have := count_ge_two_of_attr_match q (srcSlashSlashPat q) 7 u
    (by simp [srcSlashSlashPat]) (by omega) hm hcl
  omega

/-- The root-relative pass never fires inside a `src` attribute whose
value does not begin with exactly one slash (either it begins with no
slash, or with two, which the negative lookahead rejects). -/
theorem fixSrcRootPass_attr_id (q : Char) (base v : List Char)
    (hqv : q ∉ v) (hqs : (q == 's') = false) (hq' : q ≠ '/')
    (hv : v.head? = some '/' → (v.drop 1).head? = some '/') :
    fixSrcRootPass q base (srcAttr q v) = srcAttr q v := by
  have hcnt : (v ++ [q]).count q ≤ 1 := by
    rw [List.count_append]
    have h0 : v.count q = 0 := List.count_eq_zero.mpr hqv
    simp [h0, List.count_cons]
  refine fixSrcRootPassF_id q base _ (srcAttr q v) ?_
  intro n
  match n with
  | 0 =>
    rw [List.drop_zero]
    rintro ⟨hm, hla, -⟩
    cases v with
    | nil =>
      have hqslash : (q == '/') = false := by simpa using hq'
      simp [srcAttr, matchesSeq, srcSlashPat, ex, hqslash] at hm
    | cons a v' =>
      by_cases ha : a = '/'
      · subst ha
        have hv' := hv (by simp)
        apply hla
        have hdrop : (srcAttr q ('/' :: v')).drop 6 = v' ++ [q] := rfl
        rw [hdrop]
        cases v' with
        | nil => simp at hv'
        | cons b v'' =>
          simp only [List.drop_one, List.tail_cons] at hv'
          simpa using hv'
      · have hab : (a == '/') = false := by simpa using ha
        simp [srcAttr, matchesSeq, srcSlashPat, ex, hab] at hm
  | 1 =>
    rintro ⟨hm, -, -⟩
    rw [show (srcAttr q v).drop 1 = 'r' :: 'c' :: '=' :: q :: (v ++ [q]) from rfl] at hm
    simp [matchesSeq, srcSlashPat, ex] at hm
  | 2 =>
    rintro ⟨hm, -, -⟩
    rw [show (srcAttr q v).drop 2 = 'c' :: '=' :: q :: (v ++ [q]) from rfl] at hm
    simp [matchesSeq, srcSlashPat, ex] at hm
  | 3 =>
    rintro ⟨hm, -, -⟩
    rw [show (srcAttr q v).drop 3 = '=' :: q :: (v ++ [q]) from rfl] at hm
    simp [matchesSeq, srcSlashPat, ex] at hm
  | 4 =>
    rintro ⟨hm, -, -⟩
    rw [show (srcAttr q v).drop 4 = q :: (v ++ [q]) from rfl] at hm
    simp [matchesSeq, srcSlashPat, ex, hqs] at hm
  | (k + 5) =>
    rw [show (srcAttr q v).drop (k + 5) = (v ++ [q]).drop k from rfl]
    exact root_noMatch_of_count q _ (le_trans ((List.drop_sublist k _).count_le q) hcnt)

/-- The scheme-relative pass never fires inside a `src` attribute whose
value does not begin with two slashes. -/
theorem fixSrcSchemePass_attr_id (q : Char) (v : List Char)
    (hqv : q ∉ v) (hqs : (q == 's') = false) (hq' : q ≠ '/')
    (hv : ¬ (v.head? = some '/' ∧ (v.drop 1).head? = some '/')) :
    fixSrcSchemePass q (srcAttr q v) = srcAttr q v := by
  have hcnt : (v ++ [q]).count q ≤ 1 := by
    rw [List.count_append]
    have h0 : v.count q = 0 := List.count_eq_zero.mpr hqv
    simp [h0, List.count_cons]
  have hqslash : (q == '/') = false := by simpa using hq'
  refine fixSrcSchemePassF_id q _ (srcAttr q v) ?_
  intro n
  match n with
  | 0 =>
    rw [List.drop_zero]
    rintro ⟨hm, -⟩
    rcases v with - | ⟨a, - | ⟨b, v''⟩⟩
    · simp [srcAttr, matchesSeq, srcSlashSlashPat, ex, hqslash] at hm
    · simp [srcAttr, matchesSeq, srcSlashSlashPat, ex, hqslash] at hm
    · simp [srcAttr, matchesSeq, srcSlashSlashPat, ex] at hm
      exact hv (by simp [hm.1, hm.2])
  | 1 =>
    rintro ⟨hm, -⟩
    rw [show (srcAttr q v).drop 1 = 'r' :: 'c' :: '=' :: q :: (v ++ [q]) from rfl] at hm
    simp [matchesSeq, srcSlashSlashPat, ex] at hm
  | 2 =>
    rintro ⟨hm, -⟩
    rw [show (srcAttr q v).drop 2 = 'c' :: '=' :: q :: (v ++ [q]) from rfl] at hm
    simp [matchesSeq, srcSlashSlashPat, ex] at hm
  | 3 =>
    rintro ⟨hm, -⟩
    rw [show (srcAttr q v).drop 3 = '=' :: q :: (v ++ [q]) from rfl] at hm
    simp [matchesSeq, srcSlashSlashPat, ex] at hm
  | 4 =>
    rintro ⟨hm, -⟩
    rw [show (srcAttr q v).drop 4 = q :: (v ++ [q]) from rfl] at hm
    simp [matchesSeq, srcSlashSlashPat, ex, hqs] at hm
  | (k + 5) =>
    rw [show (srcAttr q v).drop (k + 5) = (v ++ [q]).drop k from rfl]
    exact scheme_noMatch_of_count q _ (le_trans ((List.drop_sublist k _).count_le q) hcnt)

theorem takeWhile_ne_append (q : Char) (p rest : List Char) (h : q ∉ p) :
    (p ++ q :: rest).takeWhile (fun x => x != q) = p := by
  induction p with
  | nil => simp [List.takeWhile_cons]
  | cons a p' ih =>
    have ha : a ≠ q := fun e => h (e ▸ List.mem_cons_self a p')
    have ha' : (a != q) = true := by simpa using ha
    simp only [List.cons_append, List.takeWhile_cons, ha', if_true]
    rw [ih (fun hm => h (List.mem_cons_of_mem a hm))]

theorem fixSrcRootPassF_nil (q : Char) (base : List Char) (fuel : Nat) :
    fixSrcRootPassF q base fuel [] = [] := by
  cases fuel <;> rfl

theorem fixSrcSchemePassF_nil (q : Char) (fuel : Nat) :
    fixSrcSchemePassF q fuel [] = [] := by
  cases fuel <;> rfl

/-- The root-relative pass on a `src` attribute whose value starts with a
single slash rewrites it against the base. -/
theorem fixSrcRootPass_rewrite (q : Char) (base p : List Char)
    (hqp : q ∉ p) (hq' : q ≠ '/') (hp : p.head? ≠ some '/') :
    fixSrcRootPass q base (srcAttr q ('/' :: p)) = srcAttr q (base ++ '/' :: p) := by
  have hlen : (srcAttr q ('/' :: p)).length = (6 + p.length) + 1 := by
    simp [srcAttr]
    omega
  show fixSrcRootPassF q base (srcAttr q ('/' :: p)).length (srcAttr q ('/' :: p)) = _
  rw [hlen]
  rw [show srcAttr q ('/' :: p) =
    's' :: 'r' :: 'c' :: '=' :: q :: '/' :: (p ++ [q]) from rfl]
  have hdrop6 : ('s' :: 'r' :: 'c' :: '=' :: q :: '/' :: (p ++ [q])).drop 6 = p ++ [q] := rfl
  have htw : (p ++ [q]).takeWhile (fun x => x != q) = p := by
    have := takeWhile_ne_append q p [] hqp
    simpa using this
  have hla : (p ++ [q]).head? ≠ some '/' := by
    cases p with
    | nil =>
      simp only [List.nil_append, List.head?_cons, ne_eq, Option.some.injEq]
      exact fun e => hq' e
    | cons a p' =>
      simpa only [List.cons_append, List.head?_cons] using hp
  have hcl : ((p ++ [q]).takeWhile (fun x => x != q)).length < (p ++ [q]).length := by
    rw [htw]
    simp
  simp only [fixSrcRootPassF, hdrop6, htw]
  rw [if_pos ⟨by simp [matchesSeq, srcSlashPat, ex], hla, by simp⟩]
  have hrest : ('r' :: 'c' :: '=' :: q :: '/' :: (p ++ [q])).drop (6 + p.length) = [] := by
    apply List.drop_eq_nil_of_le
    simp only [List.length_cons, List.length_append, List.length_nil]
    omega
  rw [hrest, fixSrcRootPassF_nil]
  rfl

/-- The scheme-relative pass on a `src` attribute whose value starts with
two slashes prepends the `https:` scheme. -/
theorem fixSrcSchemePass_rewrite (q : Char) (h : List Char)
    (hqh : q ∉ h) :
    fixSrcSchemePass q (srcAttr q ('/' :: '/' :: h)) =
      srcAttr q ("https://".toList ++ h) := by
  have hlen : (srcAttr q ('/' :: '/' :: h)).length = (7 + h.length) + 1 := by
    simp [srcAttr]
    omega
  show fixSrcSchemePassF q (srcAttr q ('/' :: '/' :: h)).length (srcAttr q ('/' :: '/' :: h)) = _
  rw [hlen]
  rw [show srcAttr q ('/' :: '/' :: h) =
    's' :: 'r' :: 'c' :: '=' :: q :: '/' :: '/' :: (h ++ [q]) from rfl]
  have hdrop7 : ('s' :: 'r' :: 'c' :: '=' :: q :: '/' :: '/' :: (h ++ [q])).drop 7 = h ++ [q] := rfl
  have htw : (h ++ [q]).takeWhile (fun x => x != q) = h := by
    have := takeWhile_ne_append q h [] hqh
    simpa using this
  have hcl : ((h ++ [q]).takeWhile (fun x => x != q)).length < (h ++ [q]).length := by
    rw [htw]
    simp
  simp only [fixSrcSchemePassF, hdrop7, htw]
  rw [if_pos ⟨by simp [matchesSeq, srcSlashSlashPat, ex], by simp⟩]
  have hrest : ('r' :: 'c' :: '=' :: q :: '/' :: '/' :: (h ++ [q])).drop (7 + h.length) = [] := by
    apply List.drop_eq_nil_of_le
    simp only [List.length_cons, List.length_append, List.length_nil]
    omega
  rw [hrest, fixSrcSchemePassF_nil]
  rfl

/-- C7 (confirmed): with image display enabled, `fixImageUrls` maps every
root-relative `src` attribute to a fully qualified URL against the forum
base origin (`src="/uploads/x.png"` becomes
`src="https://linux.do/uploads/x.png"`), maps scheme-relative
`src="//host/path"` to `https://host/path`, and leaves a `src` already
holding an absolute URL unchanged — for both quoting styles. -/
theorem fixImageUrls_resolves_urls (p h v : List Char)
    (hp1 : dquote ∉ p) (hp2 : squote ∉ p) (hp3 : p.head? ≠ some '/')
    (hh1 : dquote ∉ h) (hh2 : squote ∉ h)
    (hv1 : dquote ∉ v) (hv2 : squote ∉ v)
    (hv3 : ("http".toList).isPrefixOf v = true) :
    fixImageUrls (srcAttr dquote ('/' :: p)) = srcAttr dquote (baseUrl ++ '/' :: p) ∧
    fixImageUrls (srcAttr squote ('/' :: p)) = srcAttr squote (baseUrl ++ '/' :: p) ∧
    fixImageUrls (srcAttr dquote ('/' :: '/' :: h)) =
      srcAttr dquote ("https://".toList ++ h) ∧
    fixImageUrls (srcAttr squote ('/' :: '/' :: h)) =
      srcAttr squote ("https://".toList ++ h) ∧
    fixImageUrls (srcAttr dquote v) = srcAttr dquote v ∧
    fixImageUrls (srcAttr squote v) = srcAttr squote v := by
  have hDS : (dquote == squote) = false := by decide
  have hSD : (squote == dquote) = false := by decide
  have hsD : ('s' == dquote) = false := by decide
  have hrD : ('r' == dquote) = false := by decide
  have hcD : ('c' == dquote) = false := by decide
  have heD : ('=' == dquote) = false := by decide
  have hsS : ('s' == squote) = false := by decide
  have hrS : ('r' == squote) = false := by decide
  have hcS : ('c' == squote) = false := by decide
  have heS : ('=' == squote) = false := by decide
  have hDs : (dquote == 's') = false := by decide
  have hSs : (squote == 's') = false := by decide
  have hDslash : dquote ≠ '/' := by decide
  have hSslash : squote ≠ '/' := by decide
  have hbD : dquote ∉ baseUrl := by decide
  have hbS : squote ∉ baseUrl := by decide
  have hbcons : baseUrl = 'h' :: "ttps://linux.do".toList := by decide
  have hhtD : dquote ∉ "https://".toList := by decide
  have hhtS : squote ∉ "https://".toList := by decide
  have hhtcons : ("https://".toList) = 'h' :: "ttps://".toList := by decide
  have crossRoot : ∀ (q q' : Char) (w : List Char), ('s' == q') = false →
      ('r' == q') = false → ('c' == q') = false → ('=' == q') = false →
      (q == q') = false → q' ∉ w →
      fixSrcRootPass q' baseUrl (srcAttr q w) = srcAttr q w := by
    intro q q' w h1 h2 h3 h4 h5 hw
    apply fixSrcRootPass_id_of_count
    rw [count_srcAttr_ne q q' w h1 h2 h3 h4 h5, List.count_eq_zero.mpr hw]
    omega
  have crossScheme : ∀ (q q' : Char) (w : List Char), ('s' == q') = false →
      ('r' == q') = false → ('c' == q') = false → ('=' == q') = false →
      (q == q') = false → q' ∉ w →
      fixSrcSchemePass q' (srcAttr q w) = srcAttr q w := by
    intro q q' w h1 h2 h3 h4 h5 hw
    apply fixSrcSchemePass_id_of_count
    rw [count_srcAttr_ne q q' w h1 h2 h3 h4 h5, List.count_eq_zero.mpr hw]
    omega
  have hslashpD : dquote ∉ '/' :: p := by
    intro hm
    rcases List.mem_cons.mp hm with hm | hm
    · exact hDslash hm
    · exact hp1 hm
  have hslashpS : squote ∉ '/' :: p := by
    intro hm
    rcases List.mem_cons.mp hm with hm | hm
    · exact hSslash hm
    · exact hp2 hm
  have hsshD : dquote ∉ '/' :: '/' :: h := by
    intro hm
    rcases List.mem_cons.mp hm with hm | hm
    · exact hDslash hm
    rcases List.mem_cons.mp hm with hm | hm
    · exact hDslash hm
    · exact hh1 hm
  have hsshS : squote ∉ '/' :: '/' :: h := by
    intro hm
    rcases List.mem_cons.mp hm with hm | hm
    · exact hSslash hm
    rcases List.mem_cons.mp hm with hm | hm
    · exact hSslash hm
    · exact hh2 hm
  have hw1D : dquote ∉ baseUrl ++ '/' :: p := by
    intro hm
    rcases List.mem_append.mp hm with hm | hm
    · exact hbD hm
    · exact hslashpD hm
  have hw1S : squote ∉ baseUrl ++ '/' :: p := by
    intro hm
    rcases List.mem_append.mp hm with hm | hm
    · exact hbS hm
    · exact hslashpS hm
  have hw2D : dquote ∉ "https://".toList ++ h := by
    intro hm
    rcases List.mem_append.mp hm with hm | hm
    · exact hhtD hm
    · exact hh1 hm
  have hw2S : squote ∉ "https://".toList ++ h := by
    intro hm
    rcases List.mem_append.mp hm with hm | hm
    · exact hhtS hm
    · exact hh2 hm
  have hw1Head : (baseUrl ++ '/' :: p).head? = some 'h' := by
    rw [hbcons]
    rfl
  have hw2Head : ("https://".toList ++ h).head? = some 'h' := by
    rw [hhtcons]
    rfl
  have hw1ns : ¬ ((baseUrl ++ '/' :: p).head? = some '/' ∧
      ((baseUrl ++ '/' :: p).drop 1).head? = some '/') := by
    rintro ⟨he, -⟩
    rw [hw1Head] at he
    exact absurd he (by decide)
  have hw2ns : ¬ (("https://".toList ++ h).head? = some '/' ∧
      (("https://".toList ++ h).drop 1).head? = some '/') := by
    rintro ⟨he, -⟩
    rw [hw2Head] at he
    exact absurd he (by decide)
  have hvHead : v.head? = some 'h' := by
    cases v with
    | nil =>
      rw [show ("http".toList) = 'h' :: "ttp".toList from by decide] at hv3
      simp [List.isPrefixOf] at hv3
    | cons a v' =>
      rw [show ("http".toList) = 'h' :: "ttp".toList from by decide] at hv3
      simp only [List.isPrefixOf, Bool.and_eq_true, beq_iff_eq] at hv3
      rw [List.head?_cons, hv3.1.symm]
  have hvr : v.head? = some '/' → (v.drop 1).head? = some '/' := by
    intro he
    rw [hvHead] at he
    exact absurd he (by decide)
  have hvs : ¬ (v.head? = some '/' ∧ (v.drop 1).head? = some '/') := by
    rintro ⟨he, -⟩
    rw [hvHead] at he
    exact absurd he (by decide)
  refine ⟨?_, ?_, ?_, ?_, ?_, ?_⟩
  · simp only [fixImageUrls]
    rw [fixSrcRootPass_rewrite dquote baseUrl p hp1 hDslash hp3]
    rw [crossRoot dquote squote _ hsS hrS hcS heS hDS hw1S]
    rw [fixSrcSchemePass_attr_id dquote _ hw1D hDs hDslash hw1ns]
    rw [crossScheme dquote squote _ hsS hrS hcS heS hDS hw1S]
  · simp only [fixImageUrls]
    rw [crossRoot squote dquote _ hsD hrD hcD heD hSD hslashpD]
    rw [fixSrcRootPass_rewrite squote baseUrl p hp2 hSslash hp3]
    rw [crossScheme squote dquote _ hsD hrD hcD heD hSD hw1D]
    rw [fixSrcSchemePass_attr_id squote _ hw1S hSs hSslash hw1ns]
  · simp only [fixImageUrls]
    rw [fixSrcRootPass_attr_id dquote baseUrl _ hsshD hDs hDslash (fun _ => rfl)]
    rw [crossRoot dquote squote _ hsS hrS hcS heS hDS hsshS]
    rw [fixSrcSchemePass_rewrite dquote h hh1]
    rw [crossScheme dquote squote _ hsS hrS hcS heS hDS hw2S]
  · simp only [fixImageUrls]
    rw [crossRoot squote dquote _ hsD hrD hcD heD hSD hsshD]
    rw [fixSrcRootPass_attr_id squote baseUrl _ hsshS hSs hSslash (fun _ => rfl)]
    rw [crossScheme squote dquote _ hsD hrD hcD heD hSD hsshD]
    rw [fixSrcSchemePass_rewrite squote h hh2]
  · simp only [fixImageUrls]
    rw [fixSrcRootPass_attr_id dquote baseUrl v hv1 hDs hDslash hvr]
    rw [crossRoot dquote squote v hsS hrS hcS heS hDS hv2]
    rw [fixSrcSchemePass_attr_id dquote v hv1 hDs hDslash hvs]
    rw [crossScheme dquote squote v hsS hrS hcS heS hDS hv2]
  · simp only [fixImageUrls]
    rw [crossRoot squote dquote v hsD hrD hcD heD hSD hv1]
    rw [fixSrcRootPass_attr_id squote baseUrl v hv2 hSs hSslash hvr]
    rw [crossScheme squote dquote v hsD hrD hcD heD hSD hv1]
    rw [fixSrcSchemePass_attr_id squote v hv2 hSs hSslash hvs]

/-- C7 witness: the spec's example URLs, at both quoting styles. -/
theorem fixImageUrls_resolves_urls_witness :
    fixImageUrls (srcAttr dquote ('/' :: "uploads/x.png".toList)) =
      srcAttr dquote (baseUrl ++ '/' :: "uploads/x.png".toList) := by
  have h := fixImageUrls_resolves_urls ("uploads/x.png".toList)
    ("cdn.example/y.png".toList) ("https://other.host/z.png".toList)
    (by decide) (by decide) (by decide) (by decide) (by decide)
    (by decide) (by decide) (by decide)
  exact h.1

end LinuxDo
